import Mathlib

/-!
Shallow embedding of the toisto/kieli core: the concept graph
(`src/toisto/model/language/concept.py`), labels
(`src/toisto/model/language/label.py`) and the quiz scheduler
(`src/toisto/model/quiz/progress.py`).

Python strings become `String`, tuples and sets become `List`, dicts become
association lists, and recursions that can diverge in Python (parent chains,
the `roots` relation) take explicit fuel, with `none` modelling a Python
`RecursionError`/crash.  Classes that the repository references but whose
definitions are not part of the source tree (`Quiz`, `Retention`, `Topics`,
`Registry`, `GrammaticalCategory`) are modelled from the specification; each
such definition is marked in its doc comment.
-/

namespace Kieli

/-- Languages are identified by their IANA tag strings. -/
abbrev Language := String

/-- Concept identifiers: hierarchical, slash-segmented strings. -/
abbrev ConceptId := String

/-- A label: a surface form tagged with a language
(`label.py`, class `Label`; the Python class subclasses `str` and stores the
language in a slot; here it is a plain record of the two components). -/
structure Label where
  language : Language
  text : String
  deriving DecidableEq, Repr

/-- Split a character list on a separator character (the semantics of
Python's `str.split` with a one-character separator). -/
def splitChar (sep : Char) : List Char → List (List Char)
  | [] => [[]]
  | c :: cs =>
    let rest := splitChar sep cs
    if c == sep then [] :: rest
    else
      match rest with
      | [] => [[c]]
      | r :: rs => (c :: r) :: rs

/-- Split a string on a separator character. -/
def splitOnSep (sep : Char) (s : String) : List String :=
  (splitChar sep s.data).map (fun l => ⟨l⟩)

/-- Lexicographic comparison of character lists by code point (the order
Python uses to compare strings). -/
def charListLe : List Char → List Char → Bool
  | [], _ => true
  | _ :: _, [] => false
  | a :: as, b :: bs =>
    if a.val.toNat < b.val.toNat then true
    else if b.val.toNat < a.val.toNat then false
    else charListLe as bs

/-- String comparison by code points. -/
def strLe (a b : String) : Bool := charListLe a.data b.data

/-- The label without the notes: the text before the first note separator
`;` (`label.py`, `Label.without_notes`: `self.split(self.NOTE_SEP)[0]`). -/
def Label.without_notes (l : Label) : String :=
  (splitOnSep ';' l.text).headD ("")

/-- Label equality (`label.py`, `Label.__eq__`): labels are equal iff they
have the same language and the same text without notes. -/
def Label.eq (l other : Label) : Bool :=
  l.language == other.language && l.without_notes == other.without_notes

/-- The concept relations (`concept.py`, `ConceptRelation`):
the inverted kinds are `hyponym`, `involved_by`, `meronym`; the recursive
kinds are `holonym`, `hypernym`, `involves`. -/
inductive Relation where
  | hyponym | involved_by | meronym
  | holonym | hypernym | involves
  | antonym | answer | example
  deriving DecidableEq, Repr

/-- Whether the relation is one of the `InvertedConceptRelation` kinds
(`concept.py`, `InvertedConceptRelation`). -/
def Relation.isInvertedKind : Relation → Bool
  | .hyponym | .involved_by | .meronym => true
  | _ => false

/-- Whether the relation is one of the `RecursiveConceptRelation` kinds
(`concept.py`, `RecursiveConceptRelation`). -/
def Relation.isRecursive : Relation → Bool
  | .holonym | .hypernym | .involves => true
  | _ => false

/-- The inverted relation (`concept.py`, function `inverted`): maps each
inverted kind to the relation it is the inverse of. -/
def Relation.inverted : Relation → Relation
  | .hyponym => .hypernym
  | .involved_by => .involves
  | .meronym => .holonym
  | r => r

/-- The root-concept mapping of a concept (`concept.py`, `RootConceptIds`):
either one shared tuple of concept ids for all languages, or a dict keyed by
language. -/
inductive RootsSpec where
  | same (ids : List ConceptId)
  | perLanguage (m : List (Language × List ConceptId))
  deriving DecidableEq, Repr

/-- A concept (`concept.py`, class `Concept`).  The `level` field stands in
for the concept's language level.  Modelled from the spec: `Concept.level`
(used by the scheduler as `str(quiz.concept.level)`) is not part of the
source tree; the spec calls it "an ordering key over concepts used to
sequence curriculum difficulty", so it is embedded as the already-stringified
ordering key. -/
structure Concept where
  conceptId : ConceptId
  parent : Option ConceptId
  constituents : List ConceptId
  labels : List Label
  meanings : List Label
  related : List (Relation × List ConceptId)
  rootsSpec : RootsSpec
  answer_only : Bool
  level : String
  deriving DecidableEq, Repr

/-- The concept registry: the process-wide store of all concepts
(`concept.py`, `Concept.instances`).  Modelled from the spec: the `Registry`
container class itself is not part of the source tree; the spec describes it
as an indexed store of all registered concepts, so it is embedded as the
list of registered concepts, looked up by concept id. -/
abbrev ConceptRegistry := List Concept

/-- Look up a concept by id in the registry.  Modelled from the spec:
`Registry.get_values`; ids that reference unregistered concepts are
configuration errors rejected at load time, so lookups of declared ids
always succeed; this embedding skips unresolved ids. -/
def findConcept (reg : ConceptRegistry) (cid : ConceptId) : Option Concept :=
  reg.find? (fun c => c.conceptId == cid)

/-- Embedding of `Concept.get_concepts` (`concept.py`): resolve a list of
concept ids in the registry. -/
def getConcepts (reg : ConceptRegistry) (ids : List ConceptId) : List Concept :=
  ids.filterMap (findConcept reg)

/-- The directly declared related concepts for a relation
(`concept.py`, `self.get_concepts(*self._related_concepts[relation])`). -/
def directRelated (reg : ConceptRegistry) (rel : Relation) (c : Concept) : List Concept :=
  getConcepts reg (((c.related.find? (fun p => p.1 == rel)).map Prod.snd).getD [])

/-- Map an `Option`-valued function over a list, failing if any element
fails. -/
def optMapM (f : α → Option β) : List α → Option (List β)
  | [] => some []
  | x :: xs =>
    match f x, optMapM f xs with
    | some y, some ys => some (y :: ys)
    | _, _ => none

/-- Filter a list by an `Option`-valued predicate, failing if any element
fails. -/
def optFilter (f : α → Option Bool) : List α → Option (List α)
  | [] => some []
  | x :: xs =>
    match f x, optFilter f xs with
    | some b, some ys => some (cond b (x :: ys) ys)
    | _, _ => none

/-- Short-circuiting any over an `Option`-valued predicate (Python's
`any(...)` over a generator stops at the first truthy element). -/
def optAny (f : α → Option Bool) : List α → Option Bool
  | [] => some false
  | x :: xs =>
    match f x with
    | none => none
    | some true => some true
    | some false => optAny f xs

/-- Fuelled embedding of `Concept.get_related_concepts(relation,
*visited_concepts)` (`concept.py`): `visited` is the list of concept ids
already expanded on the current call chain.  The Python recursion is bounded
because the visited tuple grows by one unvisited concept per level; the
embedding uses explicit fuel and `grcF_isSome` below proves that
`reg.length + 2` fuel always suffices, so the fuelled function at canonical
fuel is the function computed by the source. -/
def grcF (reg : ConceptRegistry) : Nat → Relation → List ConceptId → Concept →
    Option (List Concept)
  | 0, _, _, _ => none
  | n + 1, rel, visited, c =>
    if c.conceptId ∈ visited then some []
    else if rel.isInvertedKind then
      optFilter
        (fun d => (grcF reg n rel.inverted (c.conceptId :: visited) d).map
          (fun l => decide (c ∈ l)))
        reg
    else if rel.isRecursive then
      (optMapM (grcF reg n rel (c.conceptId :: visited)) (directRelated reg rel c)).map
        (fun ls => directRelated reg rel c ++ ls.flatten)
    else some (directRelated reg rel c)

/-- Canonical fuel: enough for any traversal over the registry. -/
def grcFuel (reg : ConceptRegistry) : Nat := reg.length + 2

/-- Embedding of `Concept.get_related_concepts(relation)` with no visited
concepts, at canonical fuel (`concept.py`). -/
def getRelatedConcepts (reg : ConceptRegistry) (rel : Relation) (c : Concept) :
    List Concept :=
  (grcF reg (grcFuel reg) rel [] c).getD []

/-- A well-formed registry: no two registered concepts share an id
(duplicate ids are configuration errors rejected at load time, spec §7). -/
def WFreg (reg : ConceptRegistry) : Prop :=
  (reg.map Concept.conceptId).Nodup

instance (reg : ConceptRegistry) : Decidable (WFreg reg) := by
  unfold WFreg
  infer_instance

/-- The number of registered concepts not yet visited: the measure that
bounds the recursion depth of `get_related_concepts`. -/
def freshCount (reg : ConceptRegistry) (visited : List ConceptId) : Nat :=
  ((reg.map Concept.conceptId).filter (fun i => decide (¬ i ∈ visited))).length

/-- A concept whose `hypernym` relation lists the concept itself: a
degenerate but representable registry state. -/
def selfLoopConcept : Concept :=
  { conceptId := "s", parent := none, constituents := [], labels := [],
    meanings := [], related := [(Relation.hypernym, ["s"])],
    rootsSpec := RootsSpec.same [], answer_only := false, level := "" }

/-- The one-concept registry containing only `selfLoopConcept`. -/
def selfLoopRegistry : ConceptRegistry := [selfLoopConcept]

/-- Concrete witness data: "dog" has "canine" as its declared hypernym. -/
def dogConcept : Concept :=
  { conceptId := "dog", parent := none, constituents := [], labels := [],
    meanings := [], related := [(Relation.hypernym, ["canine"])],
    rootsSpec := RootsSpec.same [], answer_only := false, level := "" }

/-- Concrete witness data: the "canine" concept with no declared relations. -/
def canineConcept : Concept :=
  { conceptId := "canine", parent := none, constituents := [], labels := [],
    meanings := [], related := [], rootsSpec := RootsSpec.same [],
    answer_only := false, level := "" }

/-- The witness registry for relation inversion. -/
def dogRegistry : ConceptRegistry := [dogConcept, canineConcept]

/-- The concept ids of the directly declared roots for a language
(`concept.py`, `Concept.roots`: `self._roots.get(language, ()) if
isinstance(self._roots, dict) else self._roots`). -/
def rootIds (c : Concept) (language : Language) : List ConceptId :=
  match c.rootsSpec with
  | RootsSpec.same ids => ids
  | RootsSpec.perLanguage m => ((m.find? (fun p => p.1 == language)).map Prod.snd).getD []

/-- The directly declared root concepts for a language. -/
def directRoots (reg : ConceptRegistry) (language : Language) (c : Concept) :
    List Concept :=
  getConcepts reg (rootIds c language)

/-- Fuelled embedding of `Concept.roots` (`concept.py`): the source
recursion `direct_roots + direct_roots.roots(language)` carries no visited
set, so `none` models the Python `RecursionError` on cyclic roots data. -/
def rootsF (reg : ConceptRegistry) : Nat → Language → Concept → Option (List Concept)
  | 0, _, _ => none
  | n + 1, language, c =>
    (optMapM (rootsF reg n language) (directRoots reg language c)).map
      (fun ls => directRoots reg language c ++ ls.flatten)

/-- The roots computation diverges: it fails at every fuel (the embedding of
a Python `RecursionError` no matter the recursion limit). -/
def rootsDiverges (reg : ConceptRegistry) (language : Language) (c : Concept) : Prop :=
  ∀ n, rootsF reg n language c = none

/-- A concept that declares itself as its own root. -/
def selfRootConcept : Concept :=
  { conceptId := "word", parent := none, constituents := [], labels := [],
    meanings := [], related := [], rootsSpec := RootsSpec.same ["word"],
    answer_only := false, level := "" }

/-- The registry containing only the self-rooted concept. -/
def selfRootRegistry : ConceptRegistry := [selfRootConcept]

/-- Chain witness data: concept "a" declares "b" as hypernym and root. -/
def chainAConcept : Concept :=
  { conceptId := "a", parent := none, constituents := [], labels := [],
    meanings := [], related := [(Relation.hypernym, ["b"])],
    rootsSpec := RootsSpec.same ["b"], answer_only := false, level := "" }

/-- Chain witness data: concept "b" declares "c" as hypernym and root. -/
def chainBConcept : Concept :=
  { conceptId := "b", parent := none, constituents := [], labels := [],
    meanings := [], related := [(Relation.hypernym, ["c"])],
    rootsSpec := RootsSpec.same ["c"], answer_only := false, level := "" }

/-- Chain witness data: concept "c", the end of the chain. -/
def chainCConcept : Concept :=
  { conceptId := "c", parent := none, constituents := [], labels := [],
    meanings := [], related := [], rootsSpec := RootsSpec.same [],
    answer_only := false, level := "" }

/-- The three-concept chain registry a-b-c. -/
def chainRegistry : ConceptRegistry := [chainAConcept, chainBConcept, chainCConcept]

/-- Fuelled embedding of `Concept.base_concept` (`concept.py`:
`self.parent.base_concept if self.parent else self`).  The parent chain can
be cyclic in representable data, so fuel exhaustion (`none`) models the
Python `RecursionError`; an unresolvable parent id (a load-time
configuration error) is also `none`. -/
def baseConceptF (reg : ConceptRegistry) : Nat → Concept → Option Concept
  | 0, _ => none
  | n + 1, c =>
    match c.parent with
    | none => some c
    | some pid =>
      match findConcept reg pid with
      | none => none
      | some p => baseConceptF reg n p

/-- Modelled from the spec: `Retention` (§3) — `(consecutive_correct_count,
silence_until | absent)`; timestamps are natural numbers. -/
structure Retention where
  count : Nat
  silenceUntil : Option Nat
  deriving DecidableEq, Repr

/-- Modelled from the spec: the zero/unsilenced default `Retention()`. -/
def Retention.initial : Retention := { count := 0, silenceUntil := none }

/-- Modelled from the spec: `Retention.increase()` — increments the count
and recomputes `silence_until` as an increasing function of the count; the
exact growth curve is a tunable parameter (spec §9), chosen here as doubling
per streak. -/
def Retention.increase (r : Retention) (now : Nat) : Retention :=
  { count := r.count + 1, silenceUntil := some (now + 24 * 2 ^ r.count) }

/-- Modelled from the spec: `Retention.reset()` — sets the count to 0 and
clears `silence_until`. -/
def Retention.reset (_ : Retention) : Retention :=
  { count := 0, silenceUntil := none }

/-- Modelled from the spec: a retention is silenced at time `now` iff
`silence_until` is set and `now` is before it. -/
def Retention.is_silenced (r : Retention) (now : Nat) : Bool :=
  match r.silenceUntil with
  | none => false
  | some t => decide (now < t)

/-- Modelled from the spec: `Quiz` (§3, §4.2) — exposes its concept, its two
languages, its quiz-type set and its blocked-by set (identified by quiz
keys, the stable persistence identity of quizzes). -/
structure Quiz where
  concept : Concept
  question_language : Language
  answer_language : Language
  quiz_types : List String
  blocked_by : List String
  deriving DecidableEq, Repr

/-- Modelled from the spec: a quiz's identity key for persistence is a
stable string derived from concept id + languages + quiz types (§3). -/
def Quiz.key (q : Quiz) : String :=
  q.concept.conceptId ++ ":" ++ q.question_language ++ ":" ++ q.answer_language
    ++ ":" ++ String.intercalate (",") q.quiz_types

/-- Modelled from the spec: `Quiz.is_blocked_by(quizzes)` — whether any quiz
of the given set is listed in this quiz's blocked-by set (§4.3 step 3). -/
def Quiz.is_blocked_by (q : Quiz) (quizzes : List Quiz) : Bool :=
  quizzes.any (fun e => q.blocked_by.contains e.key)

/-- The relevant target language for the root-blocking check
(`progress.py`, `Progress.__root_concepts_have_quizzes`: the answer language
for write-type quizzes, else the question language). -/
def targetLanguageOf (q : Quiz) : Language :=
  if ("write") ∈ q.quiz_types then q.answer_language else q.question_language

/-- The scheduler state (`progress.py`, class `Progress`): the retention
table keyed by quiz key, the quiz universe, and the bounded rolling
recent-concepts window (a `deque` with `maxlen = skipConcepts`). -/
structure Progress where
  reg : ConceptRegistry
  progressDict : List (String × Retention)
  quizzes : List Quiz
  target_language : Language
  recentConcepts : List Concept
  skipConcepts : Nat
  deriving DecidableEq, Repr

/-- Append to a bounded deque: keep only the last `maxlen` elements
(`collections.deque(maxlen=...)`). -/
def appendBounded (l : List α) (a : α) (maxlen : Nat) : List α :=
  (l ++ [a]).drop ((l ++ [a]).length - maxlen)

/-- The base concept of a quiz's concept, at canonical fuel. -/
def Progress.baseOf (p : Progress) (q : Quiz) : Option Concept :=
  baseConceptF p.reg (p.reg.length + 1) q.concept

/-- Embedding of `Progress.get_retention` (`progress.py`): the retention for
the quiz's key, defaulting to the zero/unsilenced retention for absent
keys. -/
def Progress.get_retention (p : Progress) (q : Quiz) : Retention :=
  (p.progressDict.lookup q.key).getD Retention.initial

/-- Embedding of `dict.setdefault(key, Retention())` followed by a mutation
of the entry: update the entry in place if the key is present, else append a
freshly created entry and mutate it. -/
def updateRetention (d : List (String × Retention)) (key : String)
    (f : Retention → Retention) : List (String × Retention) :=
  if (d.lookup key).isSome then
    d.map (fun kv => if kv.1 == key then (kv.1, f kv.2) else kv)
  else d ++ [(key, f Retention.initial)]

/-- Embedding of `Progress.increase_retention` (`progress.py`):
`self.__progress_dict.setdefault(quiz.key, Retention()).increase()`. -/
def Progress.increase_retention (p : Progress) (q : Quiz) (now : Nat) : Progress :=
  { p with progressDict := updateRetention p.progressDict q.key (fun r => r.increase now) }

/-- Embedding of `Progress.reset_retention` (`progress.py`):
`self.__progress_dict.setdefault(quiz.key, Retention()).reset()`. -/
def Progress.reset_retention (p : Progress) (q : Quiz) : Progress :=
  { p with progressDict := updateRetention p.progressDict q.key Retention.reset }

/-- Embedding of `Progress.__in_progress` (`progress.py`): whether the
quiz's key has a retention entry. -/
def Progress.in_progress (p : Progress) (q : Quiz) : Bool :=
  (p.progressDict.lookup q.key).isSome

/-- Embedding of `Progress.__is_eligible` (`progress.py`): the quiz's base
concept is not in the recent-concepts window and its retention is not
silenced.  Here `none` models a crash of the base-concept computation. -/
def Progress.is_eligible (p : Progress) (now : Nat) (q : Quiz) : Option Bool :=
  (p.baseOf q).map (fun b =>
    !(decide (b ∈ p.recentConcepts)) && !((p.get_retention q).is_silenced now))

/-- The quizzes registered under a base concept
(`progress.py`, `Progress.__quizzes_by_concept`, built in `__init__` from
`quiz.concept.base_concept` for every quiz of the universe). -/
def Progress.quizzesWithBase (p : Progress) (b : Concept) : List Quiz :=
  p.quizzes.filter (fun q => decide (p.baseOf q = some b))

/-- Embedding of `Progress.__has_concept_in_progress` (`progress.py`): some
quiz for the same base concept has a retention entry. -/
def Progress.has_concept_in_progress (p : Progress) (q : Quiz) : Option Bool :=
  (p.baseOf q).map (fun b => (p.quizzesWithBase b).any p.in_progress)

/-- Embedding of `Progress.__root_concepts_have_quizzes` (`progress.py`):
whether some root of the quiz's concept (in the relevant target language)
has a quiz, other than the quiz itself, in the given set. -/
def Progress.root_concepts_have_quizzes (p : Progress) (q : Quiz)
    (quizzes : List Quiz) : Option Bool :=
  match rootsF p.reg (p.reg.length + 1) (targetLanguageOf q) q.concept with
  | none => none
  | some rs =>
    optAny (fun root =>
      (baseConceptF p.reg (p.reg.length + 1) root).map (fun rb =>
        (p.quizzesWithBase rb).any
          (fun other => !(other == q) && decide (other ∈ quizzes)))) rs

/-- Embedding of `Progress.__unblocked_quizzes` (`progress.py`): the quizzes
of the candidate set whose roots have no quizzes in the eligible set and
that are not blocked by a quiz in the eligible set. -/
def Progress.unblocked_quizzes (p : Progress) (quizzes eligible : List Quiz) :
    Option (List Quiz) :=
  optFilter (fun q =>
    (p.root_concepts_have_quizzes q eligible).map (fun rb =>
      !rb && !(q.is_blocked_by eligible))) quizzes

/-- Insert into a sorted list, after all elements that compare at most. -/
def insertLe (le : α → α → Bool) (x : α) : List α → List α
  | [] => [x]
  | y :: ys => if le y x then y :: insertLe le x ys else x :: y :: ys

/-- Insertion sort by a boolean comparison. -/
def insertionSortBy (le : α → α → Bool) : List α → List α
  | [] => []
  | x :: xs => insertLe le x (insertionSortBy le xs)

/-- The comparison used by `Progress.__sort_by_language_level`
(`progress.py`): the string order on `str(quiz.concept.level)`. -/
def levelLe (a b : Quiz) : Bool := strLe a.concept.level b.concept.level

/-- Embedding of `Progress.__sort_by_language_level` (`progress.py`): sort
the quizzes by the string form of the concept's language level. -/
def sort_by_language_level (quizzes : List Quiz) : List Quiz :=
  insertionSortBy levelLe quizzes

/-- Selecting from a non-empty unblocked set (`progress.py`, `next_quiz`:
take the first quiz of the sorted set, append its base concept to the
recent-concepts window and return it). -/
def Progress.pick (p : Progress) (u : List Quiz) : Option (Option Quiz × List Concept) :=
  match sort_by_language_level u with
  | [] => none
  | q :: _ =>
    (p.baseOf q).map (fun b =>
      (some q, appendBounded p.recentConcepts b p.skipConcepts))

/-- The tier loop of `Progress.next_quiz` (`progress.py`): try each
candidate tier in order and select from the first whose unblocked subset is
non-empty; with no tier left, return no quiz and the unchanged window. -/
def Progress.tryTiers (p : Progress) (eligible : List Quiz) :
    List (List Quiz) → Option (Option Quiz × List Concept)
  | [] => some (none, p.recentConcepts)
  | t :: ts =>
    match p.unblocked_quizzes t eligible with
    | none => none
    | some [] => p.tryTiers eligible ts
    | some u => p.pick u

/-- The eligible quizzes (`progress.py`, `next_quiz` step 1). -/
def Progress.eligible_quizzes (p : Progress) (now : Nat) : Option (List Quiz) :=
  optFilter (p.is_eligible now) p.quizzes

/-- Embedding of `Progress.next_quiz` (`progress.py`): returns the selected
quiz (or none) together with the new recent-concepts window; the outer
`none` models a crash (cyclic parent chains or roots).  `now` is the current
time used by the silencing checks. -/
def Progress.next_quiz (p : Progress) (now : Nat) :
    Option (Option Quiz × List Concept) :=
  match p.eligible_quizzes now with
  | none => none
  | some eligible =>
    match optFilter p.has_concept_in_progress eligible with
    | none => none
    | some qcip =>
      p.tryTiers eligible [qcip.filter p.in_progress, qcip, eligible]

/-- What the tier loop guarantees: either every tier's unblocked subset is
empty and no quiz is returned with the window unchanged, or the first tier
with a non-empty unblocked subset yields a quiz of minimal language level
whose base concept is appended to the bounded window. -/
def tierSpec (p : Progress) (eligible : List Quiz) (ts : List (List Quiz))
    (r : Option Quiz × List Concept) : Prop :=
  ((∀ t ∈ ts, p.unblocked_quizzes t eligible = some []) ∧
    r = (none, p.recentConcepts)) ∨
  (∃ ts1 t ts2 u q b, ts = ts1 ++ t :: ts2 ∧
    (∀ t' ∈ ts1, p.unblocked_quizzes t' eligible = some []) ∧
    p.unblocked_quizzes t eligible = some u ∧ u ≠ [] ∧
    q ∈ u ∧ (∀ q' ∈ u, strLe q.concept.level q'.concept.level = true) ∧
    p.baseOf q = some b ∧
    r = (some q, appendBounded p.recentConcepts b p.skipConcepts))

/-- Witness concept of language level B1. -/
def levelAConcept : Concept :=
  { conceptId := "wa", parent := none, constituents := [], labels := [],
    meanings := [], related := [], rootsSpec := RootsSpec.same [],
    answer_only := false, level := "B1" }

/-- Witness concept of language level A1. -/
def levelBConcept : Concept :=
  { conceptId := "wb", parent := none, constituents := [], labels := [],
    meanings := [], related := [], rootsSpec := RootsSpec.same [],
    answer_only := false, level := "A1" }

/-- The two-concept witness registry. -/
def levelRegistry : ConceptRegistry := [levelAConcept, levelBConcept]

/-- A quiz for the B1-level concept. -/
def quizLevelA : Quiz :=
  { concept := levelAConcept, question_language := "fi", answer_language := "nl",
    quiz_types := ["read"], blocked_by := [] }

/-- A quiz for the A1-level concept. -/
def quizLevelB : Quiz :=
  { concept := levelBConcept, question_language := "fi", answer_language := "nl",
    quiz_types := ["read"], blocked_by := [] }

/-- A fresh scheduler over the two witness quizzes. -/
def levelProgress : Progress :=
  { reg := levelRegistry, progressDict := [], quizzes := [quizLevelA, quizLevelB],
    target_language := "fi", recentConcepts := [], skipConcepts := 5 }

/-- The base concept "house" of the C2 counterexample. -/
def houseConcept : Concept :=
  { conceptId := "house", parent := none,
    constituents := ["house/singular", "house/plural"], labels := [],
    meanings := [], related := [], rootsSpec := RootsSpec.same [],
    answer_only := false, level := "A1" }

/-- The singular form, a child of "house". -/
def houseSingularConcept : Concept :=
  { conceptId := "house/singular", parent := some ("house"), constituents := [],
    labels := [{ language := "en", text := "house" }], meanings := [],
    related := [], rootsSpec := RootsSpec.same [], answer_only := false,
    level := "A1" }

/-- The plural form, a child of "house", declaring the singular form as its
root. -/
def housePluralConcept : Concept :=
  { conceptId := "house/plural", parent := some ("house"), constituents := [],
    labels := [{ language := "en", text := "houses" }], meanings := [],
    related := [], rootsSpec := RootsSpec.same ["house/singular"],
    answer_only := false, level := "A1" }

/-- The three-concept "house" registry. -/
def houseRegistry : ConceptRegistry :=
  [houseConcept, houseSingularConcept, housePluralConcept]

/-- The only quiz: for the plural form, whose root's base concept is the
same "house" base concept. -/
def houseQuiz : Quiz :=
  { concept := housePluralConcept, question_language := "en",
    answer_language := "fi", quiz_types := ["read"], blocked_by := [] }

/-- A fresh scheduler over the single "house" quiz. -/
def houseProgress : Progress :=
  { reg := houseRegistry, progressDict := [], quizzes := [houseQuiz],
    target_language := "fi", recentConcepts := [], skipConcepts := 5 }

/-- A concept with base "xa". -/
def zeroAConcept : Concept :=
  { conceptId := "xa", parent := none, constituents := [], labels := [],
    meanings := [], related := [], rootsSpec := RootsSpec.same [],
    answer_only := false, level := "A1" }

/-- A concept with base "xb". -/
def zeroBConcept : Concept :=
  { conceptId := "xb", parent := none, constituents := [], labels := [],
    meanings := [], related := [], rootsSpec := RootsSpec.same [],
    answer_only := false, level := "B1" }

/-- The registry of the zero-capacity counterexample. -/
def zeroRegistry : ConceptRegistry := [zeroAConcept, zeroBConcept]

/-- A quiz for "xa". -/
def zeroAQuiz : Quiz :=
  { concept := zeroAConcept, question_language := "fi", answer_language := "nl",
    quiz_types := ["read"], blocked_by := [] }

/-- A quiz for "xb". -/
def zeroBQuiz : Quiz :=
  { concept := zeroBConcept, question_language := "fi", answer_language := "nl",
    quiz_types := ["read"], blocked_by := [] }

/-- A scheduler whose rolling window has capacity 0 (`skip_concepts = 0`,
an admissible constructor argument; `deque(maxlen=0)` stays empty). -/
def zeroProgress : Progress :=
  { reg := zeroRegistry, progressDict := [], quizzes := [zeroAQuiz, zeroBQuiz],
    target_language := "fi", recentConcepts := [], skipConcepts := 0 }

/-- The labels of a sequence restricted to one language.  Modelled from the
spec: `Labels.with_language` is referenced by `concept.py` but not defined
in the source tree; the spec describes per-language label sequences, so it
is the language filter. -/
def withLanguage (ls : List Label) (language : Language) : List Label :=
  ls.filter (fun l => l.language == language)

/-- Embedding of `Concept._has_own_labels_or_meanings` (`concept.py`):
`any((self._labels + self._meanings).with_language(language))`.  Python's
`any()` tests element truthiness and `Label` subclasses `str`, so a label
whose raw text is the empty string is falsy: the check holds iff some label
or meaning for the language has non-empty text. -/
def hasOwnLabelsOrMeanings (c : Concept) (language : Language) : Bool :=
  (withLanguage (c.labels ++ c.meanings) language).any (fun l => !(l.text == ""))

/-- Embedding of `Concept.own_labels` (`concept.py`): the own labels for the
language if the concept has own labels or meanings for it, else empty. -/
def ownLabels (c : Concept) (language : Language) : List Label :=
  if hasOwnLabelsOrMeanings c language then withLanguage c.labels language else []

/-- Embedding of `Concept.own_meanings` (`concept.py`). -/
def ownMeanings (c : Concept) (language : Language) : List Label :=
  if hasOwnLabelsOrMeanings c language then withLanguage c.meanings language else []

/-- Embedding of `Concept.ancestor_labels` (`concept.py`): the own labels of
the first ancestor that has any, walking the parent chain; fuelled because
parent chains can be cyclic (`none` embeds the Python `RecursionError`, and
an unresolvable parent id also fails). -/
def ancestorLabelsF (reg : ConceptRegistry) : Nat → Concept → Language → Option (List Label)
  | 0, _, _ => none
  | n + 1, c, language =>
    match c.parent with
    | none => some []
    | some pid =>
      match findConcept reg pid with
      | none => none
      | some p =>
        if ownLabels p language ≠ [] then some (ownLabels p language)
        else ancestorLabelsF reg n p language

/-- Embedding of `Concept.ancestor_meanings` (`concept.py`). -/
def ancestorMeaningsF (reg : ConceptRegistry) : Nat → Concept → Language → Option (List Label)
  | 0, _, _ => none
  | n + 1, c, language =>
    match c.parent with
    | none => some []
    | some pid =>
      match findConcept reg pid with
      | none => none
      | some p =>
        if ownMeanings p language ≠ [] then some (ownMeanings p language)
        else ancestorMeaningsF reg n p language

/-- The constituent concepts (`concept.py`, `Concept.constituents`). -/
def constituentsOf (reg : ConceptRegistry) (c : Concept) : List Concept :=
  getConcepts reg c.constituents

/-- Embedding of `Concept.labels` (`concept.py`): own labels, else the
nearest ancestor's labels, else the union of the constituents' labels; the
fuel bounds the recursion into constituents. -/
def labelsF (reg : ConceptRegistry) : Nat → Concept → Language → Option (List Label)
  | 0, _, _ => none
  | n + 1, c, language =>
    if ownLabels c language ≠ [] then some (ownLabels c language)
    else
      match ancestorLabelsF reg (reg.length + 1) c language with
      | none => none
      | some anc =>
        if anc ≠ [] then some anc
        else
          (optMapM (fun d => labelsF reg n d language) (constituentsOf reg c)).map
            List.flatten

/-- Embedding of `Concept.is_composite` (`concept.py`): no own labels or
meanings and no ancestor labels or meanings, for the language. -/
def isCompositeF (reg : ConceptRegistry) (c : Concept) (language : Language) :
    Option Bool :=
  if hasOwnLabelsOrMeanings c language then some false
  else
    match ancestorLabelsF reg (reg.length + 1) c language with
    | none => none
    | some al =>
      if al ≠ [] then some false
      else (ancestorMeaningsF reg (reg.length + 1) c language).map List.isEmpty

/-- A concept with a constituent, no own labels for "en", but an own meaning
for "en". -/
def meaningOnlyConcept : Concept :=
  { conceptId := "cx", parent := none, constituents := ["cy"], labels := [],
    meanings := [{ language := "en", text := "a meaning" }], related := [],
    rootsSpec := RootsSpec.same [], answer_only := false, level := "" }

/-- The constituent of `meaningOnlyConcept`, with an "en" label. -/
def meaningOnlyChild : Concept :=
  { conceptId := "cy", parent := none, constituents := [],
    labels := [{ language := "en", text := "child label" }], meanings := [],
    related := [], rootsSpec := RootsSpec.same [], answer_only := false,
    level := "" }

/-- The registry for the composite counterexample. -/
def meaningRegistry : ConceptRegistry := [meaningOnlyConcept, meaningOnlyChild]

/-- A composite witness concept: constituents "py" and "pz", no labels or
meanings of its own. -/
def compositeParent : Concept :=
  { conceptId := "px", parent := none, constituents := ["py", "pz"],
    labels := [], meanings := [], related := [], rootsSpec := RootsSpec.same [],
    answer_only := false, level := "" }

/-- First constituent with an "en" label. -/
def compositeChildOne : Concept :=
  { conceptId := "py", parent := some ("px"), constituents := [],
    labels := [{ language := "en", text := "one" }], meanings := [],
    related := [], rootsSpec := RootsSpec.same [], answer_only := false,
    level := "" }

/-- Second constituent with an "en" label. -/
def compositeChildTwo : Concept :=
  { conceptId := "pz", parent := some ("px"), constituents := [],
    labels := [{ language := "en", text := "two" }], meanings := [],
    related := [], rootsSpec := RootsSpec.same [], answer_only := false,
    level := "" }

/-- The composite witness registry. -/
def compositeRegistry : ConceptRegistry :=
  [compositeParent, compositeChildOne, compositeChildTwo]

/-- Modelled from the spec: `GrammaticalCategory` — the known
grammatical-category tokens; the grammar module is not part of the source
tree.  The spec (§4.1) names "singular", "third person" and "feminine" as
examples; the concept docstring adds singular/plural and male/female verb
forms, so the natural token inventory is embedded. -/
def grammaticalCategoryTokens : List String :=
  ["singular", "plural", "first person", "second person", "third person",
   "feminine", "masculine", "neuter", "infinitive", "present tense",
   "past tense", "positive degree", "comparative degree", "superlative degree"]

/-- Embedding of `Concept.grammatical_categories` (`concept.py`): the
slash-separated segments of the concept id that are known
grammatical-category tokens, in order. -/
def Concept.grammatical_categories (c : Concept) : List String :=
  (splitOnSep '/' c.conceptId).filter (fun k => grammaticalCategoryTokens.contains k)

/-- The inner loop of `Concept.grammatical_differences` (`concept.py`):
whether any supplied concept's category at the index differs from the given
category; every supplied concept's tuple is indexed (no short-circuit), and
`none` embeds the Python `IndexError` on out-of-range access. -/
def diffAt (concepts : List Concept) (i : Nat) (g : String) : Option Bool :=
  (optMapM (fun d => d.grammatical_categories[i]?) concepts).map
    (fun gs => gs.any (fun g' => decide (g' ≠ g)))

/-- Sorted distinct elements: the embedding of Python's
`sorted(<set of strings>)`. -/
def sortDedup (l : List String) : List String := insertionSortBy strLe l.dedup

/-- Embedding of `Concept.grammatical_differences` (`concept.py`): collect,
over the indices of this concept's category tuple, the categories at which
some supplied concept differs, and return them as an alphabetically sorted
set. -/
def grammatical_differencesF (c : Concept) (concepts : List Concept) :
    Option (List String) :=
  (optMapM (fun p => (diffAt concepts p.1 p.2).map (fun b => if b then [p.2] else []))
    (List.enum c.grammatical_categories)).map (fun ls => sortDedup ls.flatten)

/-- A concept whose grammatical categories are ("singular", "feminine"). -/
def genderSingularConcept : Concept :=
  { conceptId := "verb/singular/feminine", parent := none, constituents := [],
    labels := [], meanings := [], related := [], rootsSpec := RootsSpec.same [],
    answer_only := false, level := "" }

/-- A concept whose grammatical categories are ("plural", "masculine"). -/
def genderPluralConcept : Concept :=
  { conceptId := "verb/plural/masculine", parent := none, constituents := [],
    labels := [], meanings := [], related := [], rootsSpec := RootsSpec.same [],
    answer_only := false, level := "" }

/-! ### Theorems -/

theorem optMapM_isSome_iff (f : α → Option β) (l : List α) :
    (optMapM f l).isSome ↔ ∀ x ∈ l, (f x).isSome := by
  induction l with
  | nil => simp [optMapM]
  | cons x xs ih =>
    simp only [optMapM, List.forall_mem_cons, ← ih]
    cases hx : f x <;> cases hxs : optMapM f xs <;> simp

theorem optMapM_flatten_mem {f : α → Option (List β)} {l : List α} {ls : List (List β)}
    (h : optMapM f l = some ls) (b : β) :
    b ∈ ls.flatten ↔ ∃ x ∈ l, ∃ r, f x = some r ∧ b ∈ r := by
  induction l generalizing ls with
  | nil =>
    simp only [optMapM] at h
    cases h
    simp
  | cons x xs ih =>
    simp only [optMapM] at h
    cases hx : f x with
    | none => simp [hx] at h
    | some y =>
      cases hxs : optMapM f xs with
      | none => simp [hx, hxs] at h
      | some ys =>
        simp only [hx, hxs, Option.some.injEq] at h
        subst h
        simp only [List.flatten_cons, List.mem_append, List.mem_cons]
        rw [ih hxs]
        constructor
        · rintro (hb | ⟨z, hz, r, hr, hbr⟩)
          · exact ⟨x, Or.inl rfl, y, hx, hb⟩
          · exact ⟨z, Or.inr hz, r, hr, hbr⟩
        · rintro ⟨z, hz | hz, r, hr, hbr⟩
          · subst hz
            rw [hx] at hr
            cases hr
            exact Or.inl hbr
          · exact Or.inr ⟨z, hz, r, hr, hbr⟩

theorem optFilter_isSome_iff (f : α → Option Bool) (l : List α) :
    (optFilter f l).isSome ↔ ∀ x ∈ l, (f x).isSome := by
  induction l with
  | nil => simp [optFilter]
  | cons x xs ih =>
    simp only [optFilter, List.forall_mem_cons, ← ih]
    cases hx : f x <;> cases hxs : optFilter f xs <;> simp

theorem optFilter_mem {f : α → Option Bool} {l r : List α}
    (h : optFilter f l = some r) (a : α) :
    a ∈ r ↔ a ∈ l ∧ f a = some true := by
  induction l generalizing r with
  | nil =>
    simp only [optFilter] at h
    cases h
    simp
  | cons x xs ih =>
    simp only [optFilter] at h
    cases hx : f x with
    | none => simp [hx] at h
    | some b =>
      cases hxs : optFilter f xs with
      | none => simp [hx, hxs] at h
      | some ys =>
        simp only [hx, hxs, Option.some.injEq] at h
        subst h
        cases b with
        | true =>
          simp only [cond_true, List.mem_cons]
          rw [ih hxs]
          constructor
          · rintro (rfl | ⟨hz, hf⟩)
            · exact ⟨Or.inl rfl, hx⟩
            · exact ⟨Or.inr hz, hf⟩
          · rintro ⟨rfl | hz, hf⟩
            · exact Or.inl rfl
            · exact Or.inr ⟨hz, hf⟩
        | false =>
          simp only [cond_false, List.mem_cons]
          rw [ih hxs]
          constructor
          · rintro ⟨hz, hf⟩
            exact ⟨Or.inr hz, hf⟩
          · rintro ⟨rfl | hz, hf⟩
            · rw [hx] at hf
              cases hf
            · exact ⟨hz, hf⟩

theorem optMapM_congr {f g : α → Option β} {l : List α}
    (h : ∀ x ∈ l, f x = g x) : optMapM f l = optMapM g l := by
  induction l with
  | nil => rfl
  | cons x xs ih =>
    simp only [optMapM]
    rw [h x (List.mem_cons_self x xs), ih (fun z hz => h z (List.mem_cons_of_mem _ hz))]

theorem optFilter_congr {f g : α → Option Bool} {l : List α}
    (h : ∀ x ∈ l, f x = g x) : optFilter f l = optFilter g l := by
  induction l with
  | nil => rfl
  | cons x xs ih =>
    simp only [optFilter]
    rw [h x (List.mem_cons_self x xs), ih (fun z hz => h z (List.mem_cons_of_mem _ hz))]

theorem optAny_eq_false {f : α → Option Bool} {l : List α}
    (h : optAny f l = some false) : ∀ x ∈ l, f x = some false := by
  induction l with
  | nil => simp
  | cons x xs ih =>
    simp only [optAny] at h
    intro z hz
    cases hx : f x with
    | none => rw [hx] at h; cases h
    | some b =>
      cases b with
      | true => rw [hx] at h; cases h
      | false =>
        rw [hx] at h
        rcases List.mem_cons.mp hz with rfl | hz
        · exact hx
        · exact ih h z hz

theorem findConcept_mem {reg : ConceptRegistry} {cid : ConceptId} {c : Concept}
    (h : findConcept reg cid = some c) : c ∈ reg :=
  List.mem_of_find?_eq_some h

theorem directRelated_subset {reg : ConceptRegistry} {rel : Relation} {c d : Concept}
    (h : d ∈ directRelated reg rel c) : d ∈ reg := by
  simp only [directRelated, getConcepts, List.mem_filterMap] at h
  obtain ⟨i, _, hf⟩ := h
  exact findConcept_mem hf

theorem WFreg_id_inj {reg : ConceptRegistry} (hW : WFreg reg) {a b : Concept}
    (ha : a ∈ reg) (hb : b ∈ reg) (hid : a.conceptId = b.conceptId) : a = b :=
  List.inj_on_of_nodup_map hW ha hb hid

theorem freshCount_mono {reg : ConceptRegistry} {v v' : List ConceptId}
    (h : ∀ x ∈ v, x ∈ v') : freshCount reg v' ≤ freshCount reg v := by
  unfold freshCount
  rw [← List.countP_eq_length_filter, ← List.countP_eq_length_filter]
  apply List.countP_mono_left
  intro a _ hp
  simp only [decide_eq_true_eq] at hp ⊢
  exact fun hmem => hp (h a hmem)

theorem freshCount_lt {reg : ConceptRegistry} {v : List ConceptId} {c : Concept}
    (hc : c ∈ reg) (hv : c.conceptId ∉ v) :
    freshCount reg (c.conceptId :: v) < freshCount reg v := by
  unfold freshCount
  rw [← List.countP_eq_length_filter, ← List.countP_eq_length_filter]
  have hcid : c.conceptId ∈ reg.map Concept.conceptId := List.mem_map_of_mem _ hc
  have hperm : (reg.map Concept.conceptId).Perm
      (c.conceptId :: (reg.map Concept.conceptId).erase c.conceptId) :=
    List.perm_cons_erase hcid
  rw [hperm.countP_eq, hperm.countP_eq]
  simp only [List.countP_cons]
  have h1 : (decide (¬ c.conceptId ∈ c.conceptId :: v)) = false := by simp
  have h2 : (decide (¬ c.conceptId ∈ v)) = true := by simpa using hv
  rw [h1, h2]
  simp only [Bool.false_eq_true, if_false, if_true]
  have hmono : ((reg.map Concept.conceptId).erase c.conceptId).countP
        (fun i => decide (¬ i ∈ c.conceptId :: v)) ≤
      ((reg.map Concept.conceptId).erase c.conceptId).countP
        (fun i => decide (¬ i ∈ v)) := by
    apply List.countP_mono_left
    intro a _ hp
    simp only [decide_eq_true_eq, List.mem_cons, not_or] at hp ⊢
    exact hp.2
  omega

/-- The traversal depends on the visited list only through which ids it
contains. -/
theorem grcF_visited_congr (reg : ConceptRegistry) :
    ∀ (n : Nat) (rel : Relation) (v v' : List ConceptId) (c : Concept),
    (∀ x, x ∈ v ↔ x ∈ v') →
    grcF reg n rel v c = grcF reg n rel v' c := by
  intro n
  induction n with
  | zero => intro rel v v' c _; rfl
  | succ n ih =>
    intro rel v v' c hvv
    have hvv' : ∀ x, x ∈ c.conceptId :: v ↔ x ∈ c.conceptId :: v' := by
      intro x
      simp [List.mem_cons, hvv x]
    simp only [grcF]
    by_cases hcv : c.conceptId ∈ v
    · rw [if_pos hcv, if_pos ((hvv _).mp hcv)]
    · rw [if_neg hcv, if_neg (fun h => hcv ((hvv _).mpr h))]
      by_cases hinv : rel.isInvertedKind = true
      · rw [if_pos hinv, if_pos hinv]
        exact optFilter_congr fun d _ => by rw [ih rel.inverted _ _ d hvv']
      · rw [if_neg hinv, if_neg hinv]
        by_cases hrec : rel.isRecursive = true
        · rw [if_pos hrec, if_pos hrec]
          rw [optMapM_congr fun d _ => ih rel _ _ d hvv']
        · rw [if_neg hrec, if_neg hrec]

/-- Fuel above `freshCount` always suffices for a registered concept: the
embedding of `get_related_concepts` terminates. -/
theorem grcF_isSome (reg : ConceptRegistry) :
    ∀ (n : Nat) (rel : Relation) (v : List ConceptId) (c : Concept),
    freshCount reg v < n → c ∈ reg →
    (grcF reg n rel v c).isSome := by
  intro n
  induction n with
  | zero => intro rel v c h _; exact absurd h (Nat.not_lt_zero _)
  | succ n ih =>
    intro rel v c hf hc
    simp only [grcF]
    by_cases hcv : c.conceptId ∈ v
    · rw [if_pos hcv]
      rfl
    · rw [if_neg hcv]
      have hlt : freshCount reg (c.conceptId :: v) < n :=
        Nat.lt_of_lt_of_le (freshCount_lt hc hcv) (Nat.lt_succ_iff.mp hf)
      by_cases hinv : rel.isInvertedKind = true
      · rw [if_pos hinv]
        rw [optFilter_isSome_iff]
        intro d hd
        rw [Option.isSome_map']
        exact ih rel.inverted (c.conceptId :: v) d hlt hd
      · rw [if_neg hinv]
        by_cases hrec : rel.isRecursive = true
        · rw [if_pos hrec]
          rw [Option.isSome_map']
          rw [optMapM_isSome_iff]
          intro d hd
          exact ih rel (c.conceptId :: v) d hlt (directRelated_subset hd)
        · rw [if_neg hrec]
          rfl

/-- Above the sufficiency threshold the result does not depend on the
fuel. -/
theorem grcF_fuel_congr (reg : ConceptRegistry) :
    ∀ (n m : Nat) (rel : Relation) (v : List ConceptId) (c : Concept),
    freshCount reg v < n → freshCount reg v < m → c ∈ reg →
    grcF reg n rel v c = grcF reg m rel v c := by
  intro n
  induction n with
  | zero => intro m rel v c h _ _; exact absurd h (Nat.not_lt_zero _)
  | succ n ih =>
    intro m rel v c hn hm hc
    cases m with
    | zero => exact absurd hm (Nat.not_lt_zero _)
    | succ m =>
      simp only [grcF]
      by_cases hcv : c.conceptId ∈ v
      · rw [if_pos hcv, if_pos hcv]
      · rw [if_neg hcv, if_neg hcv]
        have hltn : freshCount reg (c.conceptId :: v) < n :=
          Nat.lt_of_lt_of_le (freshCount_lt hc hcv) (Nat.lt_succ_iff.mp hn)
        have hltm : freshCount reg (c.conceptId :: v) < m :=
          Nat.lt_of_lt_of_le (freshCount_lt hc hcv) (Nat.lt_succ_iff.mp hm)
        by_cases hinv : rel.isInvertedKind = true
        · rw [if_pos hinv, if_pos hinv]
          exact optFilter_congr fun d hd => by
            rw [ih m rel.inverted _ d hltn hltm hd]
        · rw [if_neg hinv, if_neg hinv]
          by_cases hrec : rel.isRecursive = true
          · rw [if_pos hrec, if_pos hrec]
            rw [optMapM_congr fun d hd =>
              ih m rel _ d hltn hltm (directRelated_subset hd)]
          · rw [if_neg hrec, if_neg hrec]

/-- Growing the visited set shrinks the result: every concept collected by
the traversal with more visited concepts is also collected with fewer. -/
theorem grcF_visited_mono (reg : ConceptRegistry) :
    ∀ (n : Nat) (rel : Relation) (v v' : List ConceptId) (c : Concept)
      (r r' : List Concept),
    (∀ x ∈ v, x ∈ v') →
    grcF reg n rel v' c = some r' → grcF reg n rel v c = some r →
    ∀ a, a ∈ r' → a ∈ r := by
  intro n
  induction n with
  | zero => intro rel v v' c r r' _ h _; cases h
  | succ n ih =>
    intro rel v v' c r r' hvv hr' hr a ha
    have hvv' : ∀ x ∈ c.conceptId :: v, x ∈ c.conceptId :: v' := by
      intro x hx
      rcases List.mem_cons.mp hx with rfl | hx
      · exact List.mem_cons_self _ _
      · exact List.mem_cons_of_mem _ (hvv x hx)
    simp only [grcF] at hr' hr
    by_cases hcv : c.conceptId ∈ v
    · rw [if_pos hcv] at hr
      rw [if_pos (hvv _ hcv)] at hr'
      cases hr'
      cases ha
    · rw [if_neg hcv] at hr
      by_cases hcv' : c.conceptId ∈ v'
      · rw [if_pos hcv'] at hr'
        cases hr'
        cases ha
      · rw [if_neg hcv'] at hr'
        by_cases hinv : rel.isInvertedKind = true
        · rw [if_pos hinv] at hr hr'
          rw [optFilter_mem hr' a] at ha
          obtain ⟨hareg, hfa⟩ := ha
          rw [optFilter_mem hr a]
          refine ⟨hareg, ?_⟩
          rw [Option.map_eq_some'] at hfa
          obtain ⟨l', hl', hcl'⟩ := hfa
          have hsome : (grcF reg n rel.inverted (c.conceptId :: v) a).isSome := by
            have := congrArg Option.isSome hr
            simp only [Option.isSome_some] at this
            have hall := (optFilter_isSome_iff _ reg).mp this
            have := hall a hareg
            rwa [Option.isSome_map'] at this
          obtain ⟨l, hl⟩ := Option.isSome_iff_exists.mp hsome
          have hsub := ih rel.inverted (c.conceptId :: v) (c.conceptId :: v') a l l'
            hvv' hl' hl
          rw [hl, Option.map_some']
          simp only [Option.some.injEq]
          simp only [decide_eq_true_eq] at hcl' ⊢
          exact hsub c hcl'
        · rw [if_neg hinv] at hr hr'
          by_cases hrec : rel.isRecursive = true
          · rw [if_pos hrec] at hr hr'
            rw [Option.map_eq_some'] at hr hr'
            obtain ⟨ls, hls, hrls⟩ := hr
            obtain ⟨ls', hls', hrls'⟩ := hr'
            subst hrls
            subst hrls'
            rcases List.mem_append.mp ha with hdir | hflat
            · exact List.mem_append_left _ hdir
            · rw [optMapM_flatten_mem hls' a] at hflat
              obtain ⟨d, hd, rd', hrd', hard'⟩ := hflat
              have hsome : (grcF reg n rel (c.conceptId :: v) d).isSome := by
                have := congrArg Option.isSome hls
                simp only [Option.isSome_some] at this
                exact (optMapM_isSome_iff _ _).mp this d hd
              obtain ⟨rd, hrd⟩ := Option.isSome_iff_exists.mp hsome
              have hsub := ih rel (c.conceptId :: v) (c.conceptId :: v') d rd rd'
                hvv' hrd' hrd
              apply List.mem_append_right
              rw [optMapM_flatten_mem hls a]
              exact ⟨d, hd, rd, hrd, hsub a hard'⟩
          · rw [if_neg hrec] at hr hr'
            cases hr
            cases hr'
            exact ha

theorem Relation.not_inverted_of_recursive {rel : Relation}
    (h : rel.isRecursive = true) : rel.isInvertedKind = false := by
  cases rel <;> simp_all [Relation.isRecursive, Relation.isInvertedKind]

theorem grcF_visited_self {reg : ConceptRegistry} {n : Nat} {rel : Relation}
    {v : List ConceptId} {c : Concept} {r : List Concept}
    (hcv : c.conceptId ∈ v) (h : grcF reg n rel v c = some r) : r = [] := by
  cases n with
  | zero => cases h
  | succ n =>
    simp only [grcF, if_pos hcv] at h
    cases h
    rfl

/-- Adding the sought concept `a` itself to the visited set does not remove
`a` from the traversal result (for a recursive relation): if a node listing
`a` is reachable at all, one is reachable without passing through `a`. -/
theorem grcF_mem_cons_target (reg : ConceptRegistry) (hW : WFreg reg) (a : Concept)
    (ha : a ∈ reg) :
    ∀ (n : Nat) (rel : Relation) (v : List ConceptId) (c : Concept)
      (r r' : List Concept),
    rel.isRecursive = true →
    c ∈ reg → c.conceptId ≠ a.conceptId → a.conceptId ∉ v →
    freshCount reg v < n →
    grcF reg n rel v c = some r →
    grcF reg n rel (a.conceptId :: v) c = some r' →
    a ∈ r → a ∈ r' := by
  intro n
  induction n with
  | zero => intro rel v c r r' _ _ _ _ hf _ _ _; exact absurd hf (Nat.not_lt_zero _)
  | succ n ih =>
    intro rel v c r r' hrec hc hca hav hf hr hr' har
    have hinv : rel.isInvertedKind = false := Relation.not_inverted_of_recursive hrec
    by_cases hcv : c.conceptId ∈ v
    · have := grcF_visited_self hcv hr
      subst this
      cases har
    · have hcav : c.conceptId ∉ a.conceptId :: v := by
        intro h
        rcases List.mem_cons.mp h with h | h
        · exact hca h
        · exact hcv h
      simp only [grcF, if_neg hcv, if_neg hcav, hinv, Bool.false_eq_true, if_false,
        hrec, if_true] at hr hr'
      rw [Option.map_eq_some'] at hr hr'
      obtain ⟨ls, hls, hrls⟩ := hr
      obtain ⟨ls', hls', hrls'⟩ := hr'
      subst hrls
      subst hrls'
      rcases List.mem_append.mp har with hdir | hflat
      · exact List.mem_append_left _ hdir
      · rw [optMapM_flatten_mem hls a] at hflat
        obtain ⟨d, hd, rd, hrd, hard⟩ := hflat
        by_cases hda : d = a
        · subst hda
          exact List.mem_append_left _ hd
        · have hdreg : d ∈ reg := directRelated_subset hd
          have hdia : d.conceptId ≠ a.conceptId := fun h =>
            hda (WFreg_id_inj hW hdreg ha h)
          by_cases hdv : d.conceptId ∈ c.conceptId :: v
          · have := grcF_visited_self hdv hrd
            subst this
            cases hard
          · have hfresh : freshCount reg (c.conceptId :: v) < n :=
              Nat.lt_of_lt_of_le (freshCount_lt hc hcv) (Nat.lt_succ_iff.mp hf)
            have hfresh' : freshCount reg (a.conceptId :: c.conceptId :: v) < n := by
              have hsub : ∀ x ∈ c.conceptId :: v, x ∈ a.conceptId :: c.conceptId :: v :=
                fun x hx => List.mem_cons_of_mem _ hx
              exact Nat.lt_of_le_of_lt (freshCount_mono hsub) hfresh
            have hsome : (grcF reg n rel (a.conceptId :: c.conceptId :: v) d).isSome :=
              grcF_isSome reg n rel _ d hfresh' hdreg
            obtain ⟨rd'', hrd''⟩ := Option.isSome_iff_exists.mp hsome
            have hav' : a.conceptId ∉ c.conceptId :: v := by
              intro h
              rcases List.mem_cons.mp h with h | h
              · exact hca h.symm
              · exact hav h
            have hmem'' : a ∈ rd'' :=
              ih rel (c.conceptId :: v) d rd rd'' hrec hdreg hdia hav' hfresh hrd hrd'' hard
            have hswap : grcF reg n rel (c.conceptId :: a.conceptId :: v) d =
                grcF reg n rel (a.conceptId :: c.conceptId :: v) d := by
              apply grcF_visited_congr
              intro x
              simp only [List.mem_cons]
              tauto
            apply List.mem_append_right
            rw [optMapM_flatten_mem hls' a]
            exact ⟨d, hd, rd'', hswap.trans hrd'', hmem''⟩

theorem Relation.inverted_isRecursive {rel : Relation}
    (h : rel.isInvertedKind = true) : rel.inverted.isRecursive = true := by
  cases rel <;> simp_all [Relation.isInvertedKind, Relation.inverted, Relation.isRecursive]

theorem freshCount_nil_le (reg : ConceptRegistry) : freshCount reg [] ≤ reg.length := by
  unfold freshCount
  calc ((reg.map Concept.conceptId).filter _).length
      ≤ (reg.map Concept.conceptId).length := List.length_filter_le _ _
    _ = reg.length := List.length_map _ _

/-- Unfolding of the inverse scan at canonical fuel: for a registered
concept `A`, membership of `B` in `A`'s related concepts for an inverted
kind is membership of `A` in `B`'s traversal that carries `A` as visited. -/
theorem getRelatedConcepts_inverted_mem {reg : ConceptRegistry} {K : Relation}
    {A B : Concept} (hK : K.isInvertedKind = true)
    (hAnil : A.conceptId ∉ ([] : List ConceptId)) :
    (B ∈ getRelatedConcepts reg K A ↔
      B ∈ reg ∧ ∃ lB, grcF reg (reg.length + 1) K.inverted [A.conceptId] B = some lB ∧
        A ∈ lB) := by
  have hfresh : ∀ v : List ConceptId, freshCount reg v < reg.length + 1 := by
    intro v
    calc freshCount reg v ≤ freshCount reg [] := freshCount_mono (by simp)
      _ ≤ reg.length := freshCount_nil_le reg
      _ < reg.length + 1 := Nat.lt_succ_self _
  unfold getRelatedConcepts grcFuel
  have : reg.length + 2 = (reg.length + 1) + 1 := rfl
  rw [this]
  rw [grcF]
  rw [if_neg hAnil, if_pos hK]
  have hsome : (optFilter
      (fun d => (grcF reg (reg.length + 1) K.inverted (A.conceptId :: []) d).map
        (fun l => decide (A ∈ l))) reg).isSome := by
    rw [optFilter_isSome_iff]
    intro d hd
    rw [Option.isSome_map']
    exact grcF_isSome reg _ K.inverted _ d (hfresh _) hd
  obtain ⟨w, hw⟩ := Option.isSome_iff_exists.mp hsome
  rw [hw]
  simp only [Option.getD_some]
  rw [optFilter_mem hw B]
  constructor
  · rintro ⟨hBreg, hfB⟩
    rw [Option.map_eq_some'] at hfB
    obtain ⟨lB, hlB, hdec⟩ := hfB
    simp only [decide_eq_true_eq] at hdec
    exact ⟨hBreg, lB, hlB, hdec⟩
  · rintro ⟨hBreg, lB, hlB, hmem⟩
    refine ⟨hBreg, ?_⟩
    rw [hlB, Option.map_some']
    simp [hmem]

/-- C4, claim as stated, refuted: for the registered concept `s` that lists
itself as its own hypernym, `s` is among its own related concepts for
`hypernym` (the inverse of `hyponym`), but `s` is not among its own related
concepts for `hyponym` — the inverse scan passes the scanning concept as
visited, so the self-loop is cut off in one direction only.  The claimed
equivalence fails at `A = B = s`, `K = hyponym`. -/
theorem C4_counterexample :
    ¬ (selfLoopConcept ∈ getRelatedConcepts selfLoopRegistry Relation.hyponym selfLoopConcept ↔
       selfLoopConcept ∈ getRelatedConcepts selfLoopRegistry Relation.hypernym selfLoopConcept) := by
  decide

/-- C4 (amended: for distinct registered concepts A and B): for every
well-formed registry and every invertible relation kind K (`hyponym`,
`involved_by`, `meronym`), B is among A's related concepts for K if and
only if A is among B's related concepts for the inverse of K; the inverse
direction is computed by scanning all registered concepts for membership. -/
theorem C4_relation_inversion (reg : ConceptRegistry) (K : Relation)
    (A B : Concept) (hW : WFreg reg) (hA : A ∈ reg) (hB : B ∈ reg)
    (hAB : A ≠ B) (hK : K.isInvertedKind = true) :
    B ∈ getRelatedConcepts reg K A ↔ A ∈ getRelatedConcepts reg K.inverted B := by
  have hrec : K.inverted.isRecursive = true := Relation.inverted_isRecursive hK
  have hfresh0 : freshCount reg [] < reg.length + 1 :=
    Nat.lt_succ_of_le (freshCount_nil_le reg)
  have hfresh02 : freshCount reg [] < reg.length + 2 :=
    Nat.lt_of_lt_of_le hfresh0 (Nat.le_succ _)
  have hBA : B.conceptId ≠ A.conceptId := fun h => hAB (WFreg_id_inj hW hA hB h.symm)
  -- the scan side
  rw [getRelatedConcepts_inverted_mem hK (List.not_mem_nil _)]
  -- the direct side at matching fuel
  have hsome0 : (grcF reg (reg.length + 1) K.inverted [] B).isSome :=
    grcF_isSome reg _ K.inverted [] B hfresh0 hB
  obtain ⟨l0, hl0⟩ := Option.isSome_iff_exists.mp hsome0
  have hl0' : grcF reg (reg.length + 2) K.inverted [] B = some l0 := by
    rw [grcF_fuel_congr reg (reg.length + 2) (reg.length + 1) K.inverted [] B
      hfresh02 hfresh0 hB]
    exact hl0
  have hrhs : (A ∈ getRelatedConcepts reg K.inverted B ↔ A ∈ l0) := by
    unfold getRelatedConcepts grcFuel
    rw [hl0']
    simp
  rw [hrhs]
  constructor
  · rintro ⟨_, lB, hlB, hmem⟩
    exact grcF_visited_mono reg (reg.length + 1) K.inverted [] [A.conceptId] B l0 lB
      (by simp) hlB hl0 A hmem
  · intro hmem
    have hsomeB : (grcF reg (reg.length + 1) K.inverted [A.conceptId] B).isSome :=
      grcF_isSome reg _ K.inverted [A.conceptId] B
        (Nat.lt_of_le_of_lt (freshCount_mono (by simp)) hfresh0) hB
    obtain ⟨lB, hlB⟩ := Option.isSome_iff_exists.mp hsomeB
    refine ⟨hB, lB, hlB, ?_⟩
    exact grcF_mem_cons_target reg hW A hA (reg.length + 1) K.inverted [] B l0 lB
      hrec hB hBA (List.not_mem_nil _) hfresh0 hl0 hlB hmem

theorem C4_relation_inversion_witness :
    WFreg dogRegistry ∧ dogConcept ∈ dogRegistry ∧ canineConcept ∈ dogRegistry ∧
      dogConcept ≠ canineConcept ∧ Relation.hyponym.isInvertedKind = true ∧
      (dogConcept ∈ getRelatedConcepts dogRegistry Relation.hyponym canineConcept ↔
        canineConcept ∈ getRelatedConcepts dogRegistry Relation.hyponym.inverted dogConcept) :=
  ⟨by decide, by decide, by decide, by decide, by decide,
    C4_relation_inversion dogRegistry Relation.hyponym canineConcept dogConcept
      (by decide) (by decide) (by decide) (by decide) (by decide)⟩

/-- C3, claim as stated, refuted: `roots(language)` does not carry a
visited-set, and on the registered concept "word" whose declared roots
contain "word" itself the roots traversal never terminates — it fails at
every recursion depth, contradicting "every transitive traversal …
terminates even when the declared relations or roots contain
self-references or cycles". -/
theorem C3_counterexample : rootsDiverges selfRootRegistry ("en") selfRootConcept := by
  intro n
  induction n with
  | zero => rfl
  | succ n ih =>
    have hd : directRoots selfRootRegistry ("en") selfRootConcept = [selfRootConcept] := by
      rfl
    simp only [rootsF, hd, optMapM, ih]
    rfl

/-- C3 (amended): for a recursive concept relation, the traversal carries a
visited-set (it terminates on every registry, cyclic or not, and never
descends into a visited concept), and two-step chains A→B→C are in A's
transitive closure; the `roots` traversal also contains two-step chains
whenever it terminates, but it carries no visited-set and diverges on
cyclic roots data (see the counterexample). -/
theorem C3_transitive_closure :
    (∀ (reg : ConceptRegistry) (rel : Relation) (c : Concept),
      c ∈ reg → (grcF reg (grcFuel reg) rel [] c).isSome) ∧
    (∀ (reg : ConceptRegistry) (n : Nat) (rel : Relation) (v : List ConceptId)
      (c : Concept), c.conceptId ∈ v → grcF reg (n + 1) rel v c = some []) ∧
    (∀ (reg : ConceptRegistry) (K : Relation) (A B C : Concept),
      K.isRecursive = true → WFreg reg → A ∈ reg →
      B ∈ directRelated reg K A → C ∈ directRelated reg K B →
      C ∈ getRelatedConcepts reg K A) ∧
    (∀ (reg : ConceptRegistry) (language : Language) (n : Nat) (A B C : Concept)
      (rs : List Concept),
      rootsF reg n language A = some rs →
      B ∈ directRoots reg language A → C ∈ directRoots reg language B →
      C ∈ rs) := by
  refine ⟨?term, ?cutoff, ?chain, ?roots⟩
  case term =>
    intro reg rel c hc
    exact grcF_isSome reg _ rel [] c
      (Nat.lt_of_le_of_lt (freshCount_nil_le reg) (by unfold grcFuel; omega)) hc
  case cutoff =>
    intro reg n rel v c hcv
    simp only [grcF, if_pos hcv]
  case chain =>
    intro reg K A B C hK hW hA hB hC
    have hinv : K.isInvertedKind = false := Relation.not_inverted_of_recursive hK
    have hBreg : B ∈ reg := directRelated_subset hB
    have hfresh1 : freshCount reg [A.conceptId] < reg.length + 1 :=
      Nat.lt_succ_of_le (Nat.le_trans (freshCount_mono (by simp)) (freshCount_nil_le reg))
    unfold getRelatedConcepts grcFuel
    have h2 : reg.length + 2 = (reg.length + 1) + 1 := rfl
    rw [h2, grcF]
    rw [if_neg (List.not_mem_nil _), if_neg (by rw [hinv]; simp), if_pos hK]
    have hsome : (optMapM (grcF reg (reg.length + 1) K [A.conceptId])
        (directRelated reg K A)).isSome := by
      rw [optMapM_isSome_iff]
      intro d hd
      exact grcF_isSome reg _ K _ d hfresh1 (directRelated_subset hd)
    obtain ⟨ls, hls⟩ := Option.isSome_iff_exists.mp hsome
    rw [hls]
    simp only [Option.map_some', Option.getD_some, List.mem_append]
    by_cases hABeq : A = B
    · left
      rw [hABeq]
      exact hC
    · right
      have hBA : B.conceptId ∉ [A.conceptId] := by
        intro h
        rcases List.mem_cons.mp h with h | h
        · exact hABeq (WFreg_id_inj hW hA hBreg h.symm)
        · cases h
      have hsomeB : (grcF reg (reg.length + 1) K [A.conceptId] B).isSome :=
        grcF_isSome reg _ K _ B hfresh1 hBreg
      obtain ⟨rB, hrB⟩ := Option.isSome_iff_exists.mp hsomeB
      rw [optMapM_flatten_mem hls C]
      refine ⟨B, hB, rB, hrB, ?_⟩
      -- C is among B's direct relations, hence in B's closure
      cases hL : reg.length with
      | zero =>
        exfalso
        have : reg = [] := List.length_eq_zero.mp hL
        rw [this] at hBreg
        cases hBreg
      | succ L =>
        rw [hL] at hrB
        rw [grcF] at hrB
        rw [if_neg hBA, if_neg (by rw [hinv]; simp), if_pos hK] at hrB
        rw [Option.map_eq_some'] at hrB
        obtain ⟨lsB, _, hrBeq⟩ := hrB
        subst hrBeq
        exact List.mem_append_left _ hC
  case roots =>
    intro reg language n A B C rs hrs hB hC
    cases n with
    | zero => cases hrs
    | succ n =>
      simp only [rootsF] at hrs
      rw [Option.map_eq_some'] at hrs
      obtain ⟨ls, hls, hrseq⟩ := hrs
      subst hrseq
      apply List.mem_append_right
      have hsomeB : (rootsF reg n language B).isSome := by
        have := congrArg Option.isSome hls
        simp only [Option.isSome_some] at this
        exact (optMapM_isSome_iff _ _).mp this B hB
      obtain ⟨rsB, hrsB⟩ := Option.isSome_iff_exists.mp hsomeB
      rw [optMapM_flatten_mem hls C]
      refine ⟨B, hB, rsB, hrsB, ?_⟩
      cases n with
      | zero => cases hrsB
      | succ n =>
        simp only [rootsF] at hrsB
        rw [Option.map_eq_some'] at hrsB
        obtain ⟨lsB, _, hrsBeq⟩ := hrsB
        subst hrsBeq
        exact List.mem_append_left _ hC

theorem C3_transitive_closure_witness :
    Relation.hypernym.isRecursive = true ∧ WFreg chainRegistry ∧
      chainAConcept ∈ chainRegistry ∧
      chainBConcept ∈ directRelated chainRegistry Relation.hypernym chainAConcept ∧
      chainCConcept ∈ directRelated chainRegistry Relation.hypernym chainBConcept ∧
      chainCConcept ∈ getRelatedConcepts chainRegistry Relation.hypernym chainAConcept :=
  ⟨by decide, by decide, by decide, by decide, by decide,
    C3_transitive_closure.2.2.1 chainRegistry Relation.hypernym
      chainAConcept chainBConcept chainCConcept
      (by decide) (by decide) (by decide) (by decide) (by decide)⟩

theorem insertLe_ne_nil (le : α → α → Bool) (x : α) (l : List α) :
    insertLe le x l ≠ [] := by
  cases l with
  | nil => simp [insertLe]
  | cons y ys =>
    simp only [insertLe]
    by_cases h : le y x = true
    · rw [if_pos h]
      simp
    · rw [if_neg h]
      simp

theorem insertLe_mem (le : α → α → Bool) (x : α) (l : List α) (a : α) :
    a ∈ insertLe le x l ↔ a = x ∨ a ∈ l := by
  induction l with
  | nil => simp [insertLe]
  | cons y ys ih =>
    simp only [insertLe]
    by_cases h : le y x = true
    · rw [if_pos h]
      simp only [List.mem_cons, ih]
      tauto
    · rw [if_neg h]
      simp only [List.mem_cons]

theorem insertionSortBy_mem (le : α → α → Bool) (l : List α) (a : α) :
    a ∈ insertionSortBy le l ↔ a ∈ l := by
  induction l with
  | nil => simp [insertionSortBy]
  | cons x xs ih =>
    simp only [insertionSortBy, insertLe_mem, List.mem_cons, ih]

theorem insertLe_pairwise (le : α → α → Bool)
    (htot : ∀ a b, le a b = true ∨ le b a = true)
    (htrans : ∀ a b c, le a b = true → le b c = true → le a c = true)
    (x : α) (l : List α) (h : l.Pairwise (fun a b => le a b = true)) :
    (insertLe le x l).Pairwise (fun a b => le a b = true) := by
  induction l with
  | nil => simp [insertLe]
  | cons y ys ih =>
    obtain ⟨hy, hys⟩ := List.pairwise_cons.mp h
    simp only [insertLe]
    by_cases hle : le y x = true
    · rw [if_pos hle]
      rw [List.pairwise_cons]
      refine ⟨?_, ih hys⟩
      intro z hz
      rcases (insertLe_mem le x ys z).mp hz with rfl | hz
      · exact hle
      · exact hy z hz
    · rw [if_neg hle]
      have hxy : le x y = true := by
        rcases htot y x with h' | h'
        · exact absurd h' hle
        · exact h'
      rw [List.pairwise_cons]
      refine ⟨?_, h⟩
      intro z hz
      rcases List.mem_cons.mp hz with rfl | hz
      · exact hxy
      · exact htrans x y z hxy (hy z hz)

theorem insertionSortBy_pairwise (le : α → α → Bool)
    (htot : ∀ a b, le a b = true ∨ le b a = true)
    (htrans : ∀ a b c, le a b = true → le b c = true → le a c = true)
    (l : List α) :
    (insertionSortBy le l).Pairwise (fun a b => le a b = true) := by
  induction l with
  | nil => simp [insertionSortBy]
  | cons x xs ih =>
    simp only [insertionSortBy]
    exact insertLe_pairwise le htot htrans x _ ih

theorem insertionSortBy_head_min (le : α → α → Bool)
    (htot : ∀ a b, le a b = true ∨ le b a = true)
    (htrans : ∀ a b c, le a b = true → le b c = true → le a c = true)
    (l : List α) (q : α) (rest : List α)
    (h : insertionSortBy le l = q :: rest) :
    ∀ a ∈ l, le q a = true := by
  intro a ha
  have ha' : a ∈ q :: rest := by
    rw [← h, insertionSortBy_mem]
    exact ha
  rcases List.mem_cons.mp ha' with rfl | ha'
  · rcases htot a a with h' | h' <;> exact h'
  · have hp := insertionSortBy_pairwise le htot htrans l
    rw [h] at hp
    exact (List.pairwise_cons.mp hp).1 a ha'

theorem charListLe_total : ∀ a b, charListLe a b = true ∨ charListLe b a = true := by
  intro a
  induction a with
  | nil => intro b; left; rfl
  | cons x xs ih =>
    intro b
    cases b with
    | nil => right; rfl
    | cons y ys =>
      simp only [charListLe]
      by_cases h1 : x.val.toNat < y.val.toNat
      · left
        rw [if_pos h1]
      · by_cases h2 : y.val.toNat < x.val.toNat
        · right
          rw [if_pos h2]
        · rw [if_neg h1, if_neg h2, if_neg h2, if_neg h1]
          exact ih ys

theorem charListLe_trans :
    ∀ a b c, charListLe a b = true → charListLe b c = true → charListLe a c = true := by
  intro a
  induction a with
  | nil => intro b c _ _; rfl
  | cons x xs ih =>
    intro b c hab hbc
    cases b with
    | nil => simp [charListLe] at hab
    | cons y ys =>
      cases c with
      | nil => simp [charListLe] at hbc
      | cons z zs =>
        simp only [charListLe] at hab hbc ⊢
        by_cases hxy : x.val.toNat < y.val.toNat
        · by_cases hyz : y.val.toNat < z.val.toNat
          · rw [if_pos (by omega : x.val.toNat < z.val.toNat)]
          · by_cases hzy : z.val.toNat < y.val.toNat
            · rw [if_neg hyz, if_pos hzy] at hbc
              cases hbc
            · rw [if_pos (by omega : x.val.toNat < z.val.toNat)]
        · by_cases hyx : y.val.toNat < x.val.toNat
          · rw [if_neg hxy, if_pos hyx] at hab
            cases hab
          · rw [if_neg hxy, if_neg hyx] at hab
            by_cases hyz : y.val.toNat < z.val.toNat
            · rw [if_pos (by omega : x.val.toNat < z.val.toNat)]
            · by_cases hzy : z.val.toNat < y.val.toNat
              · rw [if_neg hyz, if_pos hzy] at hbc
                cases hbc
              · rw [if_neg hyz, if_neg hzy] at hbc
                rw [if_neg (by omega : ¬ x.val.toNat < z.val.toNat),
                  if_neg (by omega : ¬ z.val.toNat < x.val.toNat)]
                exact ih ys zs hab hbc

theorem strLe_total (a b : String) : strLe a b = true ∨ strLe b a = true :=
  charListLe_total a.data b.data

theorem strLe_trans (a b c : String) (hab : strLe a b = true) (hbc : strLe b c = true) :
    strLe a c = true :=
  charListLe_trans a.data b.data c.data hab hbc

theorem levelLe_total (a b : Quiz) : levelLe a b = true ∨ levelLe b a = true :=
  strLe_total _ _

theorem levelLe_trans (a b c : Quiz) (hab : levelLe a b = true)
    (hbc : levelLe b c = true) : levelLe a c = true :=
  strLe_trans _ _ _ hab hbc

theorem tryTiers_char (p : Progress) (eligible : List Quiz) :
    ∀ (ts : List (List Quiz)) (r : Option Quiz × List Concept),
    p.tryTiers eligible ts = some r → tierSpec p eligible ts r := by
  intro ts
  induction ts with
  | nil =>
    intro r h
    simp only [Progress.tryTiers, Option.some.injEq] at h
    left
    exact ⟨by simp, h.symm⟩
  | cons t ts ih =>
    intro r h
    cases hu : p.unblocked_quizzes t eligible with
    | none =>
      simp only [Progress.tryTiers, hu] at h
      exact Option.noConfusion h
    | some u =>
      cases u with
      | nil =>
        simp only [Progress.tryTiers, hu] at h
        rcases ih r h with ⟨hall, hr⟩ |
          ⟨ts1, t', ts2, u, q, b, heq, hpre, hu', hne, hq', hmin, hb, hr⟩
        · left
          refine ⟨?_, hr⟩
          intro t' ht'
          rcases List.mem_cons.mp ht' with rfl | ht'
          · exact hu
          · exact hall t' ht'
        · right
          refine ⟨t :: ts1, t', ts2, u, q, b, by rw [heq, List.cons_append], ?_,
            hu', hne, hq', hmin, hb, hr⟩
          intro t'' ht''
          rcases List.mem_cons.mp ht'' with rfl | ht''
          · exact hu
          · exact hpre t'' ht''
      | cons q0 u' =>
        simp only [Progress.tryTiers, hu] at h
        right
        cases hs : sort_by_language_level (q0 :: u') with
        | nil =>
          exact absurd (by simpa [sort_by_language_level, insertionSortBy] using hs)
            (insertLe_ne_nil levelLe q0 (insertionSortBy levelLe u'))
        | cons q rest =>
          simp only [Progress.pick, hs] at h
          rw [Option.map_eq_some'] at h
          obtain ⟨b, hb, hr⟩ := h
          refine ⟨[], t, ts, q0 :: u', q, b, by simp, by simp, hu, by simp, ?_, ?_,
            hb, hr.symm⟩
          · have hmem : q ∈ sort_by_language_level (q0 :: u') := by
              rw [hs]
              exact List.mem_cons_self _ _
            rwa [sort_by_language_level, insertionSortBy_mem] at hmem
          · intro q' hq'
            exact insertionSortBy_head_min levelLe levelLe_total levelLe_trans
              (q0 :: u') q rest hs q' hq'

theorem next_quiz_char (p : Progress) (now : Nat) (r : Option Quiz × List Concept)
    (h : p.next_quiz now = some r) :
    ∃ eligible qcip, p.eligible_quizzes now = some eligible ∧
      optFilter p.has_concept_in_progress eligible = some qcip ∧
      tierSpec p eligible [qcip.filter p.in_progress, qcip, eligible] r := by
  cases he : p.eligible_quizzes now with
  | none =>
    simp only [Progress.next_quiz, he] at h
    exact Option.noConfusion h
  | some eligible =>
    cases hc : optFilter p.has_concept_in_progress eligible with
    | none =>
      simp only [Progress.next_quiz, he, hc] at h
      exact Option.noConfusion h
    | some qcip =>
      simp only [Progress.next_quiz, he, hc] at h
      exact ⟨eligible, qcip, rfl, hc, tryTiers_char p eligible _ r h⟩

theorem appendBounded_mem_last (l : List α) (a : α) (m : Nat) (hm : 1 ≤ m) :
    a ∈ appendBounded l a m := by
  unfold appendBounded
  induction l with
  | nil =>
    simp only [List.nil_append, List.length_singleton]
    rw [Nat.sub_eq_zero_of_le hm]
    simp
  | cons x l ih =>
    simp only [List.cons_append, List.length_cons]
    cases hd : (l ++ [a]).length + 1 - m with
    | zero =>
      simp only [List.drop_zero]
      exact List.mem_cons_of_mem _ (List.mem_append_right _ (List.mem_singleton.mpr rfl))
    | succ d =>
      rw [List.drop_succ_cons]
      have hde : d = (l ++ [a]).length - m := by omega
      rw [hde]
      exact ih

/-- The quiz returned by `next_quiz` is eligible, and its base concept is
appended to the bounded recent-concepts window. -/
theorem next_quiz_sel (p : Progress) (now : Nat) (q : Quiz) (rc : List Concept)
    (h : p.next_quiz now = some (some q, rc)) :
    ∃ eligible b, p.eligible_quizzes now = some eligible ∧ q ∈ eligible ∧
      p.baseOf q = some b ∧
      rc = appendBounded p.recentConcepts b p.skipConcepts := by
  obtain ⟨eligible, qcip, he, hc, hspec⟩ := next_quiz_char p now _ h
  rcases hspec with ⟨_, hr⟩ |
    ⟨ts1, t, ts2, u, q', b, heq, _, hu, _, hq', _, hb, hr⟩
  · cases hr
  · have hqq : q' = q ∧ rc = appendBounded p.recentConcepts b p.skipConcepts := by
      have := hr
      simp only [Prod.mk.injEq, Option.some.injEq] at this
      exact ⟨this.1.symm, this.2⟩
    obtain ⟨rfl, hrc⟩ := hqq
    refine ⟨eligible, b, he, ?_, hb, hrc⟩
    have hqt : q' ∈ t := ((optFilter_mem hu q').mp hq').1
    have htmem : t ∈ [qcip.filter p.in_progress, qcip, eligible] := by
      rw [heq]
      exact List.mem_append_right _ (List.mem_cons_self _ _)
    have hsub : ∀ x ∈ qcip, x ∈ eligible := fun x hx => ((optFilter_mem hc x).mp hx).1
    simp only [List.mem_cons, List.not_mem_nil, or_false] at htmem
    rcases htmem with rfl | rfl | rfl
    · exact hsub q' (List.mem_of_mem_filter hqt)
    · exact hsub q' hqt
    · exact hqt

/-- C1: for every Progress state, `next_quiz()` examines the three candidate
tiers in order — eligible quizzes with retention history for a base concept
in progress, all eligible quizzes for base concepts in progress, and the
full eligible set — and, from the first tier whose unblocked subset is
non-empty, returns a quiz of lowest language level, appending its base
concept to the bounded rolling recent-concepts window; if no tier yields an
unblocked quiz it returns no quiz and the window is unchanged. -/
theorem C1_next_quiz_tiers (p : Progress) (now : Nat) (r : Option Quiz × List Concept)
    (h : p.next_quiz now = some r) :
    ∃ eligible qcip, p.eligible_quizzes now = some eligible ∧
      optFilter p.has_concept_in_progress eligible = some qcip ∧
      tierSpec p eligible [qcip.filter p.in_progress, qcip, eligible] r :=
  next_quiz_char p now r h

theorem C1_next_quiz_tiers_witness :
    levelProgress.next_quiz 0 = some (some quizLevelB, [levelBConcept]) ∧
      (∃ eligible qcip, levelProgress.eligible_quizzes 0 = some eligible ∧
        optFilter levelProgress.has_concept_in_progress eligible = some qcip ∧
        tierSpec levelProgress eligible
          [qcip.filter levelProgress.in_progress, qcip, eligible]
          (some quizLevelB, [levelBConcept])) :=
  ⟨by decide, C1_next_quiz_tiers levelProgress 0 (some quizLevelB, [levelBConcept])
    (by decide)⟩

/-- C2 (amended: the root-quiz check excludes the candidate quiz itself):
`next_quiz()` never returns a quiz whose concept's compound roots — in the
answer language for write-type quizzes and the question language otherwise —
still have quizzes other than the quiz itself present in the eligible set,
and never returns a quiz listed as blocked by a quiz in the eligible set. -/
theorem C2_scheduler_blocking (p : Progress) (now : Nat) (q : Quiz) (rc : List Concept)
    (h : p.next_quiz now = some (some q, rc)) :
    ∃ eligible rs, p.eligible_quizzes now = some eligible ∧
      rootsF p.reg (p.reg.length + 1) (targetLanguageOf q) q.concept = some rs ∧
      (∀ root ∈ rs, ∀ rb, baseConceptF p.reg (p.reg.length + 1) root = some rb →
        ∀ other ∈ p.quizzesWithBase rb, other ≠ q → other ∉ eligible) ∧
      q.is_blocked_by eligible = false := by
  obtain ⟨eligible, qcip, he, hc, hspec⟩ := next_quiz_char p now _ h
  rcases hspec with ⟨_, hr⟩ |
    ⟨ts1, t, ts2, u, q', b, heq, hpre, hu, hne, hq', hmin, hb, hr⟩
  · cases hr
  · have hqeq : q' = q := by
      simp only [Prod.mk.injEq, Option.some.injEq] at hr
      exact hr.1.symm
    subst hqeq
    obtain ⟨hqt, hf⟩ := (optFilter_mem hu q').mp hq'
    rw [Option.map_eq_some'] at hf
    obtain ⟨rb, hrb, hband⟩ := hf
    simp only [Bool.and_eq_true, Bool.not_eq_true'] at hband
    obtain ⟨hrbf, hblf⟩ := hband
    subst hrbf
    cases hroots : rootsF p.reg (p.reg.length + 1) (targetLanguageOf q') q'.concept with
    | none =>
      simp only [Progress.root_concepts_have_quizzes, hroots] at hrb
      exact Option.noConfusion hrb
    | some rs =>
      simp only [Progress.root_concepts_have_quizzes, hroots] at hrb
      refine ⟨eligible, rs, he, rfl, ?_, hblf⟩
      intro root hroot rbc hbase other hother hne' hmem
      have hall := optAny_eq_false hrb root hroot
      obtain ⟨rb2, hrb2, hfalse⟩ := Option.map_eq_some'.mp hall
      rw [hbase] at hrb2
      have hrbeq : rb2 = rbc := by
        cases hrb2
        rfl
      subst hrbeq
      have hx := List.any_eq_false.mp hfalse other hother
      have h1 : (other == q') = false := by
        simp only [beq_eq_false_iff_ne, ne_eq]
        exact hne'
      rw [h1] at hx
      simp only [Bool.not_false, Bool.true_and] at hx
      exact hx (decide_eq_true_eq.mpr hmem)

theorem C2_scheduler_blocking_witness :
    levelProgress.next_quiz 0 = some (some quizLevelB, [levelBConcept]) ∧
      (∃ eligible rs, levelProgress.eligible_quizzes 0 = some eligible ∧
        rootsF levelProgress.reg (levelProgress.reg.length + 1)
          (targetLanguageOf quizLevelB) quizLevelB.concept = some rs ∧
        (∀ root ∈ rs, ∀ rb,
          baseConceptF levelProgress.reg (levelProgress.reg.length + 1) root = some rb →
          ∀ other ∈ levelProgress.quizzesWithBase rb, other ≠ quizLevelB →
            other ∉ eligible) ∧
        quizLevelB.is_blocked_by eligible = false) :=
  ⟨by decide, C2_scheduler_blocking levelProgress 0 quizLevelB [levelBConcept]
    (by decide)⟩

/-- C2, claim as stated, refuted: the quiz for "house/plural" has the root
"house/singular" whose base concept "house" does have a quiz present in the
eligible set — namely the quiz itself — and `next_quiz()` nevertheless
returns it: the code's root check skips the candidate quiz itself
(`other_quiz != quiz` in `Progress.__root_concepts_have_quizzes`). -/
theorem C2_counterexample :
    houseProgress.next_quiz 0 = some (some houseQuiz, [houseConcept]) ∧
      houseProgress.eligible_quizzes 0 = some [houseQuiz] ∧
      rootsF houseProgress.reg (houseProgress.reg.length + 1)
        (targetLanguageOf houseQuiz) houseQuiz.concept
        = some [houseSingularConcept] ∧
      baseConceptF houseProgress.reg (houseProgress.reg.length + 1)
        houseSingularConcept = some houseConcept ∧
      houseQuiz ∈ houseProgress.quizzesWithBase houseConcept ∧
      houseQuiz ∈ [houseQuiz] := by
  decide

/-- C6 (amended: the recent-concepts window must have positive capacity,
`skip_concepts ≥ 1`): when at least two eligible quizzes with distinct base
concepts exist, two consecutive `next_quiz()` calls never return quizzes
sharing a base concept — the first returned quiz's base concept lands in
the rolling window, and a quiz whose base concept is in the window is not
eligible. -/
theorem C6_no_repeat_window (p : Progress) (now now' : Nat) (q1 q2 : Quiz)
    (rc1 rc2 : List Concept) (hskip : 1 ≤ p.skipConcepts)
    (_hex : ∃ eligible qa qb, p.eligible_quizzes now = some eligible ∧
      qa ∈ eligible ∧ qb ∈ eligible ∧ p.baseOf qa ≠ p.baseOf qb)
    (h1 : p.next_quiz now = some (some q1, rc1))
    (h2 : Progress.next_quiz { p with recentConcepts := rc1 } now'
      = some (some q2, rc2)) :
    ∃ b1 b2, p.baseOf q1 = some b1 ∧ p.baseOf q2 = some b2 ∧ b1 ≠ b2 := by
  obtain ⟨e1, b1, he1, hq1e, hb1, hrc1⟩ := next_quiz_sel p now q1 rc1 h1
  obtain ⟨e2, b2, he2, hq2e, hb2, hrc2⟩ :=
    next_quiz_sel { p with recentConcepts := rc1 } now' q2 rc2 h2
  refine ⟨b1, b2, hb1, hb2, ?_⟩
  have hb1mem : b1 ∈ rc1 := by
    rw [hrc1]
    exact appendBounded_mem_last _ _ _ hskip
  have helig := (optFilter_mem he2 q2).mp hq2e
  obtain ⟨_, hq2elig⟩ := helig
  obtain ⟨b2', hb2', hcond⟩ := Option.map_eq_some'.mp hq2elig
  have hb2eq : b2' = b2 := by
    rw [hb2] at hb2'
    cases hb2'
    rfl
  subst hb2eq
  simp only [Bool.and_eq_true, Bool.not_eq_true'] at hcond
  have hnotin : b2' ∉ rc1 := by
    have := hcond.1
    rw [decide_eq_false_iff_not] at this
    exact this
  intro hbeq
  rw [hbeq] at hb1mem
  exact hnotin hb1mem

/-- C6, claim as stated, refuted: with window capacity 0 and two eligible
quizzes with distinct base concepts, two consecutive `next_quiz()` calls
both return the quiz for "xa" — the same base concept twice in a row,
because the appended base concept is immediately evicted from the
zero-capacity window. -/
theorem C6_counterexample :
    zeroProgress.eligible_quizzes 0 = some [zeroAQuiz, zeroBQuiz] ∧
      zeroProgress.baseOf zeroAQuiz ≠ zeroProgress.baseOf zeroBQuiz ∧
      zeroProgress.next_quiz 0 = some (some zeroAQuiz, []) ∧
      Progress.next_quiz { zeroProgress with recentConcepts := [] } 0
        = some (some zeroAQuiz, []) := by
  decide

theorem C6_no_repeat_window_witness :
    1 ≤ levelProgress.skipConcepts ∧
      (∃ eligible qa qb, levelProgress.eligible_quizzes 0 = some eligible ∧
        qa ∈ eligible ∧ qb ∈ eligible ∧
        levelProgress.baseOf qa ≠ levelProgress.baseOf qb) ∧
      levelProgress.next_quiz 0 = some (some quizLevelB, [levelBConcept]) ∧
      Progress.next_quiz { levelProgress with recentConcepts := [levelBConcept] } 0
        = some (some quizLevelA, [levelBConcept, levelAConcept]) ∧
      (∃ b1 b2, levelProgress.baseOf quizLevelB = some b1 ∧
        levelProgress.baseOf quizLevelA = some b2 ∧ b1 ≠ b2) :=
  ⟨by decide,
    ⟨[quizLevelA, quizLevelB], quizLevelA, quizLevelB, by decide, by decide,
      by decide, by decide⟩,
    by decide, by decide,
    C6_no_repeat_window levelProgress 0 0 quizLevelB quizLevelA
      [levelBConcept] [levelBConcept, levelAConcept] (by decide)
      ⟨[quizLevelA, quizLevelB], quizLevelA, quizLevelB, by decide, by decide,
        by decide, by decide⟩
      (by decide) (by decide)⟩

theorem lookup_append_none {β : Type} :
    ∀ (d : List (String × β)) (k : String) (v : β),
    d.lookup k = none → (d ++ [(k, v)]).lookup k = some v := by
  intro d k v h
  induction d with
  | nil => simp [List.lookup]
  | cons kv d ih =>
    obtain ⟨k', v'⟩ := kv
    simp only [List.lookup, List.cons_append] at h ⊢
    cases hk : (k == k') with
    | true =>
      simp only [hk] at h
      exact Option.noConfusion h
    | false =>
      simp only [hk] at h ⊢
      exact ih h

/-- C7: `get_retention` never fails — a quiz whose key has no entry yields
the zero/unsilenced default retention; `increase_retention` and
`reset_retention` on a quiz with no prior retention first lazily create a
zero-state entry under the quiz's key and then apply the increase or
reset. -/
theorem C7_retention_lazy :
    (∀ (p : Progress) (q : Quiz), p.progressDict.lookup q.key = none →
      p.get_retention q = Retention.initial) ∧
    (∀ (p : Progress) (q : Quiz) (now : Nat), p.progressDict.lookup q.key = none →
      (p.increase_retention q now).progressDict
          = p.progressDict ++ [(q.key, Retention.initial.increase now)] ∧
        (p.increase_retention q now).get_retention q
          = Retention.initial.increase now) ∧
    (∀ (p : Progress) (q : Quiz), p.progressDict.lookup q.key = none →
      (p.reset_retention q).progressDict
          = p.progressDict ++ [(q.key, Retention.initial.reset)] ∧
        (p.reset_retention q).get_retention q = Retention.initial.reset) := by
  refine ⟨?get, ?inc, ?res⟩
  case get =>
    intro p q h
    unfold Progress.get_retention
    rw [h]
    rfl
  case inc =>
    intro p q now h
    have hdict : (p.increase_retention q now).progressDict
        = p.progressDict ++ [(q.key, Retention.initial.increase now)] := by
      unfold Progress.increase_retention updateRetention
      simp only [h, Option.isSome_none, Bool.false_eq_true, if_false]
    refine ⟨hdict, ?_⟩
    unfold Progress.get_retention
    rw [hdict, lookup_append_none p.progressDict q.key _ h]
    rfl
  case res =>
    intro p q h
    have hdict : (p.reset_retention q).progressDict
        = p.progressDict ++ [(q.key, Retention.initial.reset)] := by
      unfold Progress.reset_retention updateRetention
      simp only [h, Option.isSome_none, Bool.false_eq_true, if_false]
    refine ⟨hdict, ?_⟩
    unfold Progress.get_retention
    rw [hdict, lookup_append_none p.progressDict q.key _ h]
    rfl

theorem C7_retention_lazy_witness :
    levelProgress.progressDict.lookup quizLevelA.key = none ∧
      levelProgress.get_retention quizLevelA = Retention.initial ∧
      (levelProgress.increase_retention quizLevelA 0).get_retention quizLevelA
        = Retention.initial.increase 0 ∧
      (levelProgress.reset_retention quizLevelA).get_retention quizLevelA
        = Retention.initial.reset :=
  ⟨by decide, C7_retention_lazy.1 levelProgress quizLevelA (by decide),
    (C7_retention_lazy.2.1 levelProgress quizLevelA 0 (by decide)).2,
    (C7_retention_lazy.2.2 levelProgress quizLevelA (by decide)).2⟩

/-- C5, claim as stated, refuted: the concept "cx" has a constituent and no
own labels for "en", yet it is not reported composite for "en" — it has an
own meaning for "en", and `is_composite` also requires the absence of own
meanings and of ancestor labels/meanings. -/
theorem C5_counterexample :
    meaningOnlyConcept.constituents ≠ [] ∧
      withLanguage meaningOnlyConcept.labels ("en") = [] ∧
      isCompositeF meaningRegistry meaningOnlyConcept ("en") = some false := by
  decide

/-- C5 (amended: composite additionally requires no own meanings and no
ancestor labels or meanings for the language, where "having" an own label
or meaning follows Python truthiness — a label whose raw text is empty does
not count): such a concept is composite for L and its labels for L are the
union (concatenation) of its constituents' labels; a concept with an own
label with non-empty text for L is never composite for L regardless of
constituents; label resolution follows the precedence own labels, else
nearest ancestor's, else union of constituents', first non-empty level
winning. -/
theorem C5_composite_resolution :
    (∀ (reg : ConceptRegistry) (c : Concept) (language : Language),
      hasOwnLabelsOrMeanings c language = false →
      ancestorLabelsF reg (reg.length + 1) c language = some [] →
      ancestorMeaningsF reg (reg.length + 1) c language = some [] →
      isCompositeF reg c language = some true) ∧
    (∀ (reg : ConceptRegistry) (n : Nat) (c : Concept) (language : Language)
      (ls : List (List Label)),
      hasOwnLabelsOrMeanings c language = false →
      ancestorLabelsF reg (reg.length + 1) c language = some [] →
      optMapM (fun d => labelsF reg n d language) (constituentsOf reg c) = some ls →
      labelsF reg (n + 1) c language = some ls.flatten) ∧
    (∀ (reg : ConceptRegistry) (c : Concept) (language : Language),
      (∃ l ∈ withLanguage c.labels language, l.text ≠ "") →
      isCompositeF reg c language = some false) ∧
    (∀ (reg : ConceptRegistry) (n : Nat) (c : Concept) (language : Language),
      ownLabels c language ≠ [] →
      labelsF reg (n + 1) c language = some (ownLabels c language)) ∧
    (∀ (reg : ConceptRegistry) (n : Nat) (c : Concept) (language : Language)
      (anc : List Label),
      ownLabels c language = [] →
      ancestorLabelsF reg (reg.length + 1) c language = some anc → anc ≠ [] →
      labelsF reg (n + 1) c language = some anc) := by
  refine ⟨?comp, ?union, ?own, ?prec1, ?prec2⟩
  case comp =>
    intro reg c language hown hal ham
    unfold isCompositeF
    rw [hown, hal, ham]
    simp
  case union =>
    intro reg n c language ls hown hal hmap
    have hols : ownLabels c language = [] := by
      unfold ownLabels
      rw [hown]
      simp
    simp only [labelsF, hols, ne_eq, not_true_eq_false, if_neg, hal, hmap]
    simp
  case own =>
    intro reg c language hlab
    obtain ⟨l, hl, hne⟩ := hlab
    have hown : hasOwnLabelsOrMeanings c language = true := by
      unfold hasOwnLabelsOrMeanings
      rw [List.any_eq_true]
      refine ⟨l, ?_, by simp [hne]⟩
      unfold withLanguage at hl ⊢
      rw [List.filter_append]
      exact List.mem_append_left _ hl
    unfold isCompositeF
    rw [hown]
    simp
  case prec1 =>
    intro reg n c language hown
    simp only [labelsF, ne_eq, hown, not_false_eq_true, if_pos]
  case prec2 =>
    intro reg n c language anc hown hanc hne
    simp only [labelsF, hown, ne_eq, not_true_eq_false, if_neg, hanc, hne,
      not_false_eq_true, if_pos]

theorem C5_composite_resolution_witness :
    hasOwnLabelsOrMeanings compositeParent ("en") = false ∧
      ancestorLabelsF compositeRegistry 4 compositeParent ("en") = some [] ∧
      ancestorMeaningsF compositeRegistry 4 compositeParent ("en") = some [] ∧
      isCompositeF compositeRegistry compositeParent ("en") = some true ∧
      labelsF compositeRegistry 2 compositeParent ("en")
        = some [{ language := "en", text := "one" }, { language := "en", text := "two" }] :=
  ⟨by decide, by decide, by decide,
    C5_composite_resolution.1 compositeRegistry compositeParent ("en")
      (by decide) (by decide) (by decide),
    by
      have h := C5_composite_resolution.2.1 compositeRegistry 1 compositeParent ("en")
        [[{ language := "en", text := "one" }], [{ language := "en", text := "two" }]]
        (by decide) (by decide) (by decide)
      exact h⟩

/-- C8: two labels are equal iff they have the same language and the same
text before the first note separator `;`: `Label(L, "hoi;note1")` equals
`Label(L, "hoi;note2")`, while labels with different languages are
unequal. -/
theorem C8_label_equality :
    (∀ (l1 l2 : Label), Label.eq l1 l2 = true ↔
      (l1.language = l2.language ∧ l1.without_notes = l2.without_notes)) ∧
    Label.eq { language := "nl", text := "hoi;note1" }
      { language := "nl", text := "hoi;note2" } = true ∧
    Label.eq { language := "nl", text := "hoi" }
      { language := "en", text := "hoi" } = false := by
  refine ⟨?_, by decide, by decide⟩
  intro l1 l2
  unfold Label.eq
  simp [Bool.and_eq_true, beq_iff_eq]

theorem optMapM_mem {f : α → Option β} {l : List α} {ys : List β}
    (h : optMapM f l = some ys) (y : β) :
    y ∈ ys ↔ ∃ x ∈ l, f x = some y := by
  induction l generalizing ys with
  | nil =>
    simp only [optMapM] at h
    cases h
    simp
  | cons x xs ih =>
    simp only [optMapM] at h
    cases hx : f x with
    | none => simp [hx] at h
    | some z =>
      cases hxs : optMapM f xs with
      | none => simp [hx, hxs] at h
      | some zs =>
        simp only [hx, hxs, Option.some.injEq] at h
        subst h
        simp only [List.mem_cons]
        rw [ih hxs]
        constructor
        · rintro (rfl | ⟨w, hw, hfw⟩)
          · exact ⟨x, Or.inl rfl, hx⟩
          · exact ⟨w, Or.inr hw, hfw⟩
        · rintro ⟨w, rfl | hw, hfw⟩
          · rw [hx] at hfw
            cases hfw
            exact Or.inl rfl
          · exact Or.inr ⟨w, hw, hfw⟩

/-- C9, claim as stated, refuted: the categories of
"verb/singular/feminine" are ("singular", "feminine") in tuple-position
order, both positions differ from "verb/plural/masculine", but
`grammatical_differences` returns the alphabetically sorted list
["feminine", "singular"] — the tuple-position order is not preserved in the
result. -/
theorem C9_counterexample :
    genderSingularConcept.grammatical_categories = ["singular", "feminine"] ∧
      grammatical_differencesF genderSingularConcept [genderPluralConcept]
        = some ["feminine", "singular"] ∧
      ["feminine", "singular"] ≠ ["singular", "feminine"] := by
  decide

/-- C9 (amended: the grammatical differences are returned as an
alphabetically sorted deduplicated list, not in tuple-position order): a
concept's grammatical-category tuple consists of exactly those
slash-separated segments of its id that are known grammatical-category
tokens, in the order they appear; and the differences between a concept and
a set of concepts are exactly the categories of this concept at whose tuple
position some supplied concept differs, sorted alphabetically. -/
theorem C9_grammatical_categories :
    (∀ c : Concept,
      c.grammatical_categories.Sublist (splitOnSep '/' c.conceptId) ∧
      ∀ s ∈ splitOnSep '/' c.conceptId,
        (s ∈ c.grammatical_categories ↔ s ∈ grammaticalCategoryTokens)) ∧
    (∀ (c : Concept) (cs : List Concept) (r : List String),
      grammatical_differencesF c cs = some r →
      r.Pairwise (fun a b => strLe a b = true) ∧
      ∀ s, (s ∈ r ↔ ∃ i : Nat, c.grammatical_categories[i]? = some s ∧
        ∃ d ∈ cs, ∃ g', d.grammatical_categories[i]? = some g' ∧ g' ≠ s)) := by
  constructor
  · intro c
    constructor
    · exact List.filter_sublist _
    · intro s hs
      unfold Concept.grammatical_categories
      rw [List.mem_filter]
      simp [hs, List.elem_iff]
  · intro c cs r h
    obtain ⟨ls, hls, hreq⟩ := Option.map_eq_some'.mp h
    subst hreq
    constructor
    · exact insertionSortBy_pairwise strLe strLe_total strLe_trans _
    · intro s
      rw [sortDedup, insertionSortBy_mem, List.mem_dedup]
      rw [optMapM_flatten_mem hls s]
      constructor
      · rintro ⟨⟨i, g⟩, hmem, seg, hseg, hsseg⟩
        obtain ⟨b, hb, hsegeq⟩ := Option.map_eq_some'.mp hseg
        subst hsegeq
        cases b with
        | false => simp at hsseg
        | true =>
          have hs : s = g := by simpa using hsseg
          subst hs
          obtain ⟨gs, hgs, hany⟩ := Option.map_eq_some'.mp hb
          rw [List.any_eq_true] at hany
          obtain ⟨g', hg', hne⟩ := hany
          rw [decide_eq_true_eq] at hne
          obtain ⟨d, hd, hget⟩ := (optMapM_mem hgs g').mp hg'
          have hidx : c.grammatical_categories[i]? = some s :=
            List.mk_mem_enum_iff_getElem?.mp hmem
          exact ⟨i, hidx, d, hd, g', hget, hne⟩
      · rintro ⟨i, hidx, d, hd, g', hget, hne⟩
        refine ⟨(i, s), List.mk_mem_enum_iff_getElem?.mpr hidx, ?_⟩
        have hsome := congrArg Option.isSome hls
        simp only [Option.isSome_some] at hsome
        have hfs := (optMapM_isSome_iff _ _).mp hsome (i, s)
          (List.mk_mem_enum_iff_getElem?.mpr hidx)
        rw [Option.isSome_map'] at hfs
        obtain ⟨b, hb⟩ := Option.isSome_iff_exists.mp hfs
        obtain ⟨gs, hgs, hbeq⟩ := Option.map_eq_some'.mp hb
        have hg'mem : g' ∈ gs := (optMapM_mem hgs g').mpr ⟨d, hd, hget⟩
        have hany : gs.any (fun x => decide (x ≠ s)) = true :=
          List.any_eq_true.mpr ⟨g', hg'mem, decide_eq_true_eq.mpr hne⟩
        have hbtrue : b = true := by rw [← hbeq, hany]
        subst hbtrue
        refine ⟨[s], ?_, List.mem_singleton.mpr rfl⟩
        rw [hb]
        simp

theorem C9_grammatical_categories_witness :
    grammatical_differencesF genderSingularConcept [genderPluralConcept]
        = some ["feminine", "singular"] ∧
      (["feminine", "singular"] : List String).Pairwise
        (fun a b => strLe a b = true) ∧
      (∀ s, (s ∈ (["feminine", "singular"] : List String) ↔
        ∃ i : Nat, genderSingularConcept.grammatical_categories[i]? = some s ∧
          ∃ d ∈ [genderPluralConcept], ∃ g',
            d.grammatical_categories[i]? = some g' ∧ g' ≠ s)) :=
  ⟨by decide,
    (C9_grammatical_categories.2 genderSingularConcept [genderPluralConcept]
      ["feminine", "singular"] (by decide)).1,
    (C9_grammatical_categories.2 genderSingularConcept [genderPluralConcept]
      ["feminine", "singular"] (by decide)).2⟩

/-- C10: `grammatical_differences` indexes every supplied concept's category
tuple at each position of this concept's tuple without a bounds check; under
the precondition that every supplied concept has at least as many categories
as this concept, the out-of-range access (embedded as `none`) is
unreachable; sharing a base concept alone does not guarantee the
precondition — "house/singular" and its base "house" share the base concept
yet the computation fails. -/
theorem C10_differences_precondition :
    (∀ (c : Concept) (cs : List Concept),
      (∀ d ∈ cs, c.grammatical_categories.length ≤ d.grammatical_categories.length) →
      (grammatical_differencesF c cs).isSome) ∧
    baseConceptF houseRegistry (houseRegistry.length + 1) houseSingularConcept
      = some houseConcept ∧
    baseConceptF houseRegistry (houseRegistry.length + 1) houseConcept
      = some houseConcept ∧
    grammatical_differencesF houseSingularConcept [houseConcept] = none := by
  refine ⟨?total, by decide, by decide, by decide⟩
  case total =>
    intro c cs hlen
    unfold grammatical_differencesF
    rw [Option.isSome_map']
    rw [optMapM_isSome_iff]
    rintro ⟨i, g⟩ hmem
    rw [Option.isSome_map']
    unfold diffAt
    rw [Option.isSome_map']
    rw [optMapM_isSome_iff]
    intro d hd
    have hidx : c.grammatical_categories[i]? = some g :=
      List.mk_mem_enum_iff_getElem?.mp hmem
    have hlt : i < c.grammatical_categories.length := by
      by_contra hge
      rw [List.getElem?_eq_none (Nat.le_of_not_lt hge)] at hidx
      cases hidx
    have hlt' : i < d.grammatical_categories.length :=
      Nat.lt_of_lt_of_le hlt (hlen d hd)
    show (d.grammatical_categories[i]?).isSome = true
    rw [List.getElem?_eq_getElem hlt']
    rfl

theorem C10_differences_precondition_witness :
    (∀ d ∈ [genderPluralConcept],
      genderSingularConcept.grammatical_categories.length
        ≤ d.grammatical_categories.length) ∧
      (grammatical_differencesF genderSingularConcept [genderPluralConcept]).isSome :=
  ⟨by decide,
    C10_differences_precondition.1 genderSingularConcept [genderPluralConcept]
      (by decide)⟩

end Kieli
